import Mathlib

/-!
Verification of the space-wrapper text-normalization pipeline.

The repository has two source files, both defining a `SpaceWrapper` class with a
protect / normalize / mode-process / restore / cleanup pipeline:
  * `src/script.js`           — the basic pipeline (namespace `Script` below);
  * `src/unnamed/part_000`    — the structure-aware pipeline (namespace `Struct` below).

Strings are modelled as `List Char`.  JavaScript string and regex semantics
(the `\s` class, `String.prototype.trim`, `split`, global `replace` with
left-to-right non-overlapping matching) are embedded explicitly below; each
regex of the source is implemented as a dedicated matcher with the exact
backtracking behaviour of the JS engine on that pattern.
-/

/-- Characters of the JavaScript `\s` class (which is also the set trimmed by
`String.prototype.trim`): WhiteSpace ∪ LineTerminator. -/
def jsIsWs (c : Char) : Bool :=
  c = ' ' || c = '\t' || c = '\n' || c = '\x0d' || c = '\x0b' || c = '\x0c' ||
  c.toNat = 0xA0 || c.toNat = 0x1680 || (0x2000 ≤ c.toNat && c.toNat ≤ 0x200A) ||
  c.toNat = 0x2028 || c.toNat = 0x2029 || c.toNat = 0x202F || c.toNat = 0x205F ||
  c.toNat = 0x3000 || c.toNat = 0xFEFF

/-- JavaScript `\w` class: ASCII letters, digits and underscore. -/
def jsIsWord (c : Char) : Bool :=
  c.isAlpha || c.isDigit || c = '_'

/-- JS `String.prototype.trim`. -/
def jsTrim (s : List Char) : List Char :=
  ((s.dropWhile jsIsWs).reverse.dropWhile jsIsWs).reverse

/-- JS `String.prototype.trimEnd`. -/
def jsTrimEnd (s : List Char) : List Char :=
  (s.reverse.dropWhile jsIsWs).reverse

/-- Does `pat` occur at the start of `s`?  (Plain list comparison.) -/
def isPre : List Char → List Char → Bool
  | [], _ => true
  | _ :: _, [] => false
  | p :: ps, c :: cs => p = c && isPre ps cs

/-- JS `String.prototype.includes`: does `pat` occur anywhere in `s`? -/
def hasSub : List Char → List Char → Bool
  | s, pat =>
    if isPre pat s then true
    else match s with
      | [] => false
      | _ :: cs => hasSub cs pat

/-- Case-insensitive (ASCII `toLower`) version of `isPre`, for regexes with
the `i` flag. -/
def isPreCI : List Char → List Char → Bool
  | [], _ => true
  | _ :: _, [] => false
  | p :: ps, c :: cs => p.toLower = c.toLower && isPreCI ps cs

/-- JS `split('\n')`-style split on a single character (keeps empty pieces). -/
def splitOnChar (sep : Char) : List Char → List (List Char)
  | [] => [[]]
  | c :: cs =>
    let rest := splitOnChar sep cs
    if c = sep then [] :: rest
    else match rest with
      | [] => [[c]]
      | r :: rs => (c :: r) :: rs

/-- Join a list of strings with a separator string (JS `Array.prototype.join`). -/
def joinWith (sep : List Char) : List (List Char) → List Char
  | [] => []
  | [x] => x
  | x :: xs => x ++ sep ++ joinWith sep xs

/-- Auxiliary: `dropWhile` never lengthens a list. -/
theorem dropWhile_len_le (p : Char → Bool) : ∀ l : List Char, (l.dropWhile p).length ≤ l.length := by
  intro l
  induction l with
  | nil => simp [List.dropWhile]
  | cons c cs ih =>
    simp only [List.dropWhile]
    cases p c <;> simp <;> omega

/-- Worker for `collapseRuns`: `inRun` records whether the previous character was
part of a run already rewritten to a space. -/
def collapseRunsGo (p : Char → Bool) : Bool → List Char → List Char
  | _, [] => []
  | inRun, c :: cs =>
    if p c then
      if inRun then collapseRunsGo p true cs
      else ' ' :: collapseRunsGo p true cs
    else c :: collapseRunsGo p false cs

/-- Collapse every run of characters satisfying `p` to a single `' '`
(JS `replace(/X+/g, ' ')` for a character class `X`). -/
def collapseRuns (p : Char → Bool) (s : List Char) : List Char :=
  collapseRunsGo p false s

/-- Remove every character satisfying `p` (JS `replace(/X+/g, '')`). -/
def removeAll (p : Char → Bool) (s : List Char) : List Char :=
  s.filter (fun c => !(p c))

/-- Worker for `replaceSub`: `skip` counts characters of an already-replaced
match still to be consumed. -/
def replaceSubGo (pat repl : List Char) : Nat → List Char → List Char
  | _, [] => []
  | k + 1, _ :: cs => replaceSubGo pat repl k cs
  | 0, c :: cs =>
    if pat ≠ [] && isPre pat (c :: cs) then
      repl ++ replaceSubGo pat repl (pat.length - 1) cs
    else
      c :: replaceSubGo pat repl 0 cs

/-- JS global literal replacement `replace(new RegExp(escape(pat), 'g'))` with a
plain replacement string: leftmost, non-overlapping, scanning continues after
each replacement.  `pat` is non-empty for every call in the source. -/
def replaceSub (pat repl s : List Char) : List Char :=
  replaceSubGo pat repl 0 s

/-- Worker for `wordRuns`: `inWord` records whether the previous character was
non-whitespace. -/
def wordRunsGo : Bool → List Char → Nat
  | _, [] => 0
  | inWord, c :: cs =>
    if jsIsWs c then wordRunsGo false cs
    else (if inWord then 0 else 1) + wordRunsGo true cs

/-- Number of maximal runs of non-whitespace characters: this is what
`s.trim().split(/\s+/).length` computes for a string with nonempty trim,
and the word count used throughout the source. -/
def wordRuns (s : List Char) : Nat :=
  wordRunsGo false s

/-- Word count of the source: `text.trim() ? text.trim().split(/\s+/).length : 0`. -/
def jsWordCount (s : List Char) : Nat := wordRuns s

/-- The backtick character (used by the inline-code regex). -/
def btick : Char := Char.ofNat 96

/-- Length of the maximal non-whitespace run at the head of `s`
(what a greedy `[^\s]+` consumes when nothing follows it). -/
def nonWsRunLen (s : List Char) : Nat :=
  (s.takeWhile (fun c => !(jsIsWs c))).length

/-- Length of the maximal ASCII-letter run at the head of `s`. -/
def letterRunLen (s : List Char) : Nat :=
  (s.takeWhile (fun c => c.isAlpha)).length

/-- Index of the last occurrence of `c` in `l`, if any. -/
def lastIdxOf (c : Char) : List Char → Option Nat
  | [] => none
  | d :: ds =>
    match lastIdxOf c ds with
    | some j => some (j + 1)
    | none => if d = c then some 0 else none

/-- Protection-table state of `SpaceWrapper`: `nextTokenId` and the insertion-ordered
`protectedMap` (token, original substring). -/
structure PTState where
  nextId : Nat
  table : List (List Char × List Char)
deriving Repr, DecidableEq

/-- State at the start of a `processText` call (`protectedMap.clear(); nextTokenId = 1`). -/
def initState : PTState := ⟨1, []⟩

/-- JS `String.prototype.replace(regex-with-g, callback)`: scan left to right, at each
position ask the matcher for a match length; replace and continue after the match,
otherwise move one character forward.  `prev` is the character just before the
current position (needed by `\b` and by `^` in multiline patterns).  The source's
patterns never match the empty string; a zero-length answer is treated as no match. -/
def replaceScanGo (matchAt : Option Char → List Char → Option Nat)
    (repl : List Char → PTState → (List Char × PTState)) :
    Nat → Option Char → List Char → PTState → (List Char × PTState)
  | _, _, [], st => ([], st)
  | k + 1, prev, _ :: cs, st => replaceScanGo matchAt repl k prev cs st
  | 0, prev, c :: cs, st =>
    match matchAt prev (c :: cs) with
    | some (n + 1) =>
      let m := (c :: cs).take (n + 1)
      let (r, st1) := repl m st
      let (t, st2) := replaceScanGo matchAt repl n (some (m.getLastD c)) cs st1
      (r ++ t, st2)
    | _ =>
      let (t, st1) := replaceScanGo matchAt repl 0 (some c) cs st
      (c :: t, st1)

/-- Entry point of the scan, at the start of the text (no previous character). -/
def replaceScan (matchAt : Option Char → List Char → Option Nat)
    (repl : List Char → PTState → (List Char × PTState))
    (prev : Option Char) (s : List Char) (st : PTState) : List Char × PTState :=
  replaceScanGo matchAt repl 0 prev s st

/-- Matcher for the URL rule `/(https?:\/\/[^\s]+|www\.[^\s]+\.[^\s]+)/gi`.
Branch 1 is tried first; `s?` is greedy; the final `[^\s]+` of branch 2 swallows
the whole maximal non-whitespace run provided it contains an internal dot. -/
def matchURL (s : List Char) : Option Nat :=
  let branch1At : Nat → Option Nat := fun k =>
    if isPre "://".toList (s.drop k) then
      let run := nonWsRunLen (s.drop (k + 3))
      if run = 0 then none else some (k + 3 + run)
    else none
  if isPreCI "http".toList s then
    match (if isPreCI "s".toList (s.drop 4) then branch1At 5 else none) with
    | some n => some n
    | none => branch1At 4
  else if isPreCI "www.".toList s then
    let run := (s.drop 4).takeWhile (fun c => !(jsIsWs c))
    if ((run.drop 1).dropLast).contains '.' then some (4 + run.length) else none
  else none

/-- Character class `[\w.%+-]` of the email rule's local part. -/
def emailLocalChar (c : Char) : Bool :=
  jsIsWord c || c = '.' || c = '%' || c = '+' || c = '-'

/-- Character class `[\w.-]` of the email rule's domain part. -/
def emailDomChar (c : Char) : Bool :=
  jsIsWord c || c = '.' || c = '-'

/-- Try the dot at index `k` of the domain run `R2`: the TLD `[a-zA-Z]{2,}` is the
maximal letter run after it, and the closing `\b` demands a non-word character
(or the run's end) right after those letters. -/
def emailSplitAt (R2 : List Char) (k : Nat) : Option (Nat × Nat) :=
  if R2.getD k ' ' = '.' && decide (1 ≤ k) then
    let L := letterRunLen (R2.drop (k + 1))
    if 2 ≤ L && (k + 1 + L = R2.length || !(jsIsWord (R2.getD (k + 1 + L) ' '))) then
      some (k, L)
    else none
  else none

/-- Backtracking search for the dot split, from the greedy (rightmost) candidate down. -/
def emailFindSplit (R2 : List Char) : Nat → Option (Nat × Nat)
  | 0 => none
  | k + 1 =>
    match emailSplitAt R2 (k + 1) with
    | some r => some r
    | none => emailFindSplit R2 k

/-- Matcher for the email rule `/\b[\w.%+-]+@[\w.-]+\.[a-zA-Z]{2,}\b/gi`.
`prev` is the character before the match position (for the opening `\b`). -/
def matchEmail (prev : Option Char) (s : List Char) : Option Nat :=
  let prevWord := match prev with | some c => jsIsWord c | none => false
  let headWord := match s with | c :: _ => jsIsWord c | [] => false
  if prevWord = headWord then none
  else
    let R1 := s.takeWhile emailLocalChar
    if R1 = [] then none
    else if (s.drop R1.length).getD 0 ' ' = '@' then
      let R2 := (s.drop (R1.length + 1)).takeWhile emailDomChar
      match emailFindSplit R2 (R2.length - 1) with
      | some (k, L) => some (R1.length + 1 + k + 1 + L)
      | none => none
    else none

/-- Matcher for the inline-code rule `` /`([^`]+)`/g ``. -/
def matchInlineCode (s : List Char) : Option Nat :=
  match s with
  | c :: rest =>
    if c = btick then
      let run := rest.takeWhile (fun d => d ≠ btick)
      if run ≠ [] ∧ rest.getD run.length ' ' = btick then some (run.length + 2) else none
    else none
  | [] => none

/-- Character class `[\w\s.-]` inside a file-path group (note: it contains all of
JS whitespace, newlines included). -/
def fpClassChar (c : Char) : Bool :=
  jsIsWord c || jsIsWs c || c = '.' || c = '-'

/-- A path separator `[\\\/]`. -/
def isSlash (c : Char) : Bool :=
  c = '/' || c = '\\'

/-- Total length consumed by `(?:[\\\/][\w\s.-]+)+` (0 when not even one group
matches): each group is a separator plus a maximal class run. -/
def fpGroupsGo : Nat → List Char → Nat
  | k + 1, _ :: cs => fpGroupsGo k cs
  | _, [] => 0
  | 0, c :: cs =>
    if isSlash c then
      let run := cs.takeWhile fpClassChar
      if run.length = 0 then 0
      else 1 + run.length + fpGroupsGo run.length cs
    else 0

/-- Entry point: groups matched from the current position. -/
def fpGroups (s : List Char) : Nat :=
  fpGroupsGo 0 s

/-- Matcher for the file-path rule `/(?:[a-zA-Z]:)?(?:[\\\/][\w\s.-]+)+/g`: an
optional drive prefix, then at least one separator-plus-run group. -/
def matchFilePath (s : List Char) : Option Nat :=
  match s with
  | a :: b :: rest =>
    if a.isAlpha && b = ':' then
      let g := fpGroups rest
      if g = 0 then none else some (2 + g)
    else
      let g := fpGroups (a :: b :: rest)
      if g = 0 then none else some g
  | _ =>
    let g := fpGroups s
    if g = 0 then none else some g

/-- Blank-line separator split `text.split(/\n\s*\n/)` (used by `splitIntoBatches`
in both sources and by the paragraph split of `processModeB`).  `blankSepLen` is the separator match at the head of a
suffix (greedy `\s*`, backtracking to the last newline of the whitespace run). -/
def blankSepLen (s : List Char) : Option Nat :=
  match s with
  | c :: rest =>
    if c = '\n' then
      match lastIdxOf '\n' (rest.takeWhile jsIsWs) with
      | some j => some (j + 2)
      | none => none
    else none
  | [] => none

/-- A blank-line separator match is at least two characters long. -/
theorem blankSepLen_ge : ∀ s n, blankSepLen s = some n → 2 ≤ n := by
  intro s n h
  match s with
  | [] => simp [blankSepLen] at h
  | c :: cs =>
    simp only [blankSepLen] at h
    by_cases hc : c = '\n'
    · rw [if_pos hc] at h
      cases hm : lastIdxOf '\n' (cs.takeWhile jsIsWs) with
      | none => rw [hm] at h; simp at h
      | some j => rw [hm] at h; simp at h; omega
    · rw [if_neg hc] at h; simp at h

/-- Attach a character to the front of the current (first) piece. -/
def consPiece (c : Char) : List (List Char) → List (List Char)
  | [] => [[c]]
  | r :: rs => (c :: r) :: rs

/-- Worker for `splitBlank`: `skip` counts separator characters still to be
consumed after a separator match. -/
def splitBlankGo : Nat → List Char → List (List Char)
  | _, [] => [[]]
  | k + 1, _ :: cs => splitBlankGo k cs
  | 0, c :: cs =>
    match blankSepLen (c :: cs) with
    | some n => [] :: splitBlankGo (n - 1) cs
    | none => consPiece c (splitBlankGo 0 cs)

/-- The pieces of `text.split(/\n\s*\n/)` (empty pieces kept, as in JS). -/
def splitBlank (s : List Char) : List (List Char) :=
  splitBlankGo 0 s

namespace Script

/-- The token `` `__PROTECTED_${this.nextTokenId}__` ``. -/
def mkProtTok (id : Nat) : List Char :=
  "__PROTECTED_".toList ++ (Nat.repr id).toList ++ "__".toList

/-- The replacement callback shared by the four protection rules of `script.js`:
skip a match that already contains a token marker, otherwise record it in the
table under a fresh token. -/
def protectRepl (m : List Char) (st : PTState) : List Char × PTState :=
  if hasSub m "__PROTECTED_".toList then (m, st)
  else
    let tok := mkProtTok st.nextId
    (tok, ⟨st.nextId + 1, st.table ++ [(tok, m)]⟩)

/-- `protectContent`: the four regex passes (URLs, emails, inline code, file paths)
in source order, each as a global replace. -/
def protectContent (text : List Char) (st : PTState) : List Char × PTState :=
  let (t1, s1) := replaceScan (fun _ s => matchURL s) protectRepl none text st
  let (t2, s2) := replaceScan matchEmail protectRepl none t1 s1
  let (t3, s3) := replaceScan (fun _ s => matchInlineCode s) protectRepl none t2 s2
  replaceScan (fun _ s => matchFilePath s) protectRepl none t3 s3

/-- The Unicode-whitespace class of `normalizeWhitespace`
`[\t\r\f\v\u00A0\u1680\u2000-\u200A\u2028\u2029\u202F\u205F\u3000]`
(note: it does not contain `\n` or a plain space). -/
def uniClass1 (c : Char) : Bool :=
  c = '\t' || c = '\x0d' || c = '\x0c' || c = '\x0b' ||
  c.toNat = 0xA0 || c.toNat = 0x1680 || (0x2000 ≤ c.toNat && c.toNat ≤ 0x200A) ||
  c.toNat = 0x2028 || c.toNat = 0x2029 || c.toNat = 0x202F || c.toNat = 0x205F ||
  c.toNat = 0x3000

/-- `normalizeWhitespace`: map the Unicode-whitespace class to spaces, collapse
space runs, then normalize line endings (the `\r\n` step is vacuous because
`\r` was already mapped to a space by the first step). -/
def normalizeWhitespace (text : List Char) : List Char :=
  let n1 := text.map (fun c => if uniClass1 c then ' ' else c)
  let n2 := collapseRuns (fun c => c = ' ') n1
  let n3 := replaceSub "\x0d\n".toList "\n".toList n2
  n3.map (fun c => if c = '\x0d' then '\n' else c)

/-- `processModeA` (Single Paragraph): line breaks to spaces, collapse spaces, trim. -/
def processModeA (text : List Char) : List Char :=
  jsTrim (collapseRuns (fun c => c = ' ')
    (text.map (fun c => if c = '\n' then ' ' else c)))

/-- `splitIntoBatches`: split on blank-line separators and keep pieces whose trim
is non-empty. -/
def splitIntoBatches (text : List Char) : List (List Char) :=
  (splitBlank text).filter (fun b => jsTrim b ≠ [])

/-- `processModeB` (Clean Paragraph): split into paragraphs, collapse each, rejoin
with one blank line. -/
def processModeB (text : List Char) : List Char :=
  let paragraphs := (splitBlank text).filter (fun p => jsTrim p ≠ [])
  let processed := paragraphs.map (fun p =>
    jsTrim (collapseRuns (fun c => c = ' ')
      (p.map (fun c => if c = '\n' then ' ' else c))))
  joinWith "\n\n".toList processed

/-- `processModeC` (Hard Normalization): delete line breaks, collapse all
whitespace runs to single spaces, trim. -/
def processModeC (text : List Char) : List Char :=
  jsTrim (collapseRuns jsIsWs (text.filter (fun c => !(c = '\n'))))

/-- `finalCleanup`: collapse space runs and trim. -/
def finalCleanup (text : List Char) : List Char :=
  jsTrim (collapseRuns (fun c => c = ' ') text)

/-- `restoreProtectedContent`: for each table entry in insertion order, globally
replace the token by the original substring. -/
def restoreProtectedContent (text : List Char) (st : PTState) : List Char :=
  st.table.foldl (fun acc kv => replaceSub kv.1 kv.2 acc) text

/-- `processBatch`: protect, normalize, mode-dispatch (unknown modes fall through
to the normalized text), restore, cleanup. -/
def processBatch (mode : List Char) (batch : List Char) (st : PTState) :
    List Char × PTState :=
  let (protectedText, st1) := protectContent batch st
  let normalized := normalizeWhitespace protectedText
  let processed :=
    if mode = "A".toList then processModeA normalized
    else if mode = "B".toList then processModeB normalized
    else if mode = "C".toList then processModeC normalized
    else normalized
  let restored := restoreProtectedContent processed st1
  (finalCleanup restored, st1)

/-- `processText` of `script.js`: trim the raw input, return empty output for an
empty trim, otherwise process the batches left to right with the shared
(freshly reset) protection state and join with one blank line. -/
def processTextL (mode raw : List Char) : List Char :=
  let input := jsTrim raw
  if input = [] then []
  else
    let batches := splitIntoBatches input
    let outs := (batches.foldl (fun acc b =>
      let (o, st1) := processBatch mode b acc.2
      (acc.1 ++ [o], st1)) (([] : List (List Char)), initState)).1
    joinWith "\n\n".toList outs

/-- String-level wrapper of `processTextL`. -/
def processText (mode input : String) : String :=
  String.mk (processTextL mode.toList input.toList)

end Script

/-- First index at which `pat` occurs in `s` (for the lazy `[\s\S]*?` followed by a
literal), if any. -/
def findSubIdx (pat : List Char) : List Char → Option Nat
  | [] => if pat = [] then some 0 else none
  | c :: cs =>
    if isPre pat (c :: cs) then some 0
    else match findSubIdx pat cs with
      | some i => some (i + 1)
      | none => none

/-- Case-insensitive `findSubIdx` (for `i`-flagged patterns). -/
def findSubIdxCI (pat : List Char) : List Char → Option Nat
  | [] => if pat = [] then some 0 else none
  | c :: cs =>
    if isPreCI pat (c :: cs) then some 0
    else match findSubIdxCI pat cs with
      | some i => some (i + 1)
      | none => none

/-- Case-insensitive `endsWith`. -/
def ciEndsWith (s pat : List Char) : Bool :=
  isPreCI pat.reverse s.reverse

/-- A `^` of an `m`-flagged regex holds at the start of the text or right after a
newline; the driver's `prev` carries exactly this information. -/
def atLineStart (prev : Option Char) : Bool :=
  match prev with
  | none => true
  | some c => c = '\n'

namespace Struct

/-- The token `` `__STRUCTURED_${this.nextTokenId}__` ``. -/
def mkStructTok (id : Nat) : List Char :=
  "__STRUCTURED_".toList ++ (Nat.repr id).toList ++ "__".toList

/-- The token `` `__MULTILINE_BLOCK_${this.nextTokenId}__` ``. -/
def mkMulTok (id : Nat) : List Char :=
  "__MULTILINE_BLOCK_".toList ++ (Nat.repr id).toList ++ "__".toList

/-- The token `` `__HTML_BLOCK_${this.nextTokenId}__` ``. -/
def mkHtmlTok (id : Nat) : List Char :=
  "__HTML_BLOCK_".toList ++ (Nat.repr id).toList ++ "__".toList

/-- Replacement callback of `protectMultiLineBlocks` (no re-entrancy guard in the
source): always record the match under a fresh token. -/
def blockRepl (mk : Nat → List Char) (m : List Char) (st : PTState) :
    List Char × PTState :=
  let tok := mk st.nextId
  (tok, ⟨st.nextId + 1, st.table ++ [(tok, m)]⟩)

/-- The re-entrancy guard of `protectStructureAndContent`: a match containing any
of the four marker classes is passed through unmodified. -/
def structGuard (m : List Char) : Bool :=
  hasSub m "__PROTECTED_".toList || hasSub m "__STRUCTURED_".toList ||
  hasSub m "__MULTILINE_".toList || hasSub m "__HTML_BLOCK_".toList

/-- Replacement callback of the structural/inline rules. -/
def structRepl (m : List Char) (st : PTState) : List Char × PTState :=
  if structGuard m then (m, st)
  else blockRepl mkStructTok m st

/-- One branch of the fenced-code-block rule
`` /(```[^`\n]*\n[\s\S]*?\n```|~~~[^~\n]*\n[\s\S]*?\n~~~)/g ``:
three fence characters, an info string without fence or newline characters, a
newline, then lazily up to the closing newline-plus-fence. -/
def matchFence (fence : Char) (s : List Char) : Option Nat :=
  if isPre [fence, fence, fence] s then
    let rest := s.drop 3
    let info := rest.takeWhile (fun c => !(c = fence) && !(c = '\n'))
    if rest.getD info.length ' ' = '\n' then
      let body := rest.drop (info.length + 1)
      match findSubIdx ['\n', fence, fence, fence] body with
      | some i => some (3 + info.length + 1 + i + 4)
      | none => none
    else none
  else none

/-- The fenced-code-block matcher: the backtick branch, then the tilde branch. -/
def matchCodeBlock (s : List Char) : Option Nat :=
  match matchFence btick s with
  | some n => some n
  | none => matchFence '~' s

/-- Open-tag suffix `TAG(?:\s[^>]*)?>` starting right after a `<`: the tag name
(case-insensitively), an optional whitespace-led attribute part up to the first
`>`, and the closing `>`.  Returns the number of characters consumed after the
`<`. -/
def tryTagAt (s : List Char) (tag : List Char) : Option Nat :=
  if isPreCI tag s then
    let rest := s.drop tag.length
    match rest with
    | c :: cs =>
      if jsIsWs c then
        let attrs := cs.takeWhile (fun d => !(d = '>'))
        if cs.getD attrs.length ' ' = '>' then
          some (tag.length + 1 + attrs.length + 1)
        else none
      else if c = '>' then some (tag.length + 1)
      else none
    | [] => none
  else none

/-- Matcher for a `<(t1|t2|…)(?:\s[^>]*)?>[\s\S]*?<\/\2>` block rule with `gi`
flags: try the tag alternatives in order, and for a successful open tag search
lazily for the matching close tag. -/
def matchTagBlock (tags : List (List Char)) (s : List Char) : Option Nat :=
  match s with
  | c :: rest =>
    if c = '<' then
      tags.findSome? (fun tag =>
        match tryTagAt rest tag with
        | some openLen =>
          let body := rest.drop openLen
          match findSubIdxCI ('<' :: '/' :: (tag ++ ['>'])) body with
          | some i => some (1 + openLen + i + (tag.length + 3))
          | none => none
        | none => none)
    else none
  | [] => none

/-- Tag list of the HTML-block rule, in source order. -/
def htmlBlockTags : List (List Char) :=
  ["pre", "code", "div", "section", "article", "header", "footer", "nav",
   "aside", "main", "figure"].map String.toList

/-- Tag list of the script/style rule. -/
def scriptStyleTags : List (List Char) :=
  ["script", "style"].map String.toList

/-- `protectMultiLineBlocks`: fenced code blocks, then HTML blocks, then
script/style blocks, each as a global replace without a re-entrancy guard. -/
def protectMultiLineBlocks (text : List Char) (st : PTState) : List Char × PTState :=
  let (t1, s1) := replaceScan (fun _ s => matchCodeBlock s) (blockRepl mkMulTok) none text st
  let (t2, s2) := replaceScan (fun _ s => matchTagBlock htmlBlockTags s) (blockRepl mkHtmlTok) none t1 s1
  replaceScan (fun _ s => matchTagBlock scriptStyleTags s) (blockRepl mkHtmlTok) none t2 s2

/-- Matcher for `/^(#{1,6}\s+.*)$/gm`: at a line start, one to six hashes, at
least one whitespace character (`\s` may cross newlines), then the rest of the
line. -/
def matchMdHeading (prev : Option Char) (s : List Char) : Option Nat :=
  if atLineStart prev then
    let hashes := (s.takeWhile (fun c => c = '#')).length
    if 1 ≤ hashes && hashes ≤ 6 then
      let rest := s.drop hashes
      let ws := rest.takeWhile jsIsWs
      if ws = [] then none
      else
        let content := (rest.drop ws.length).takeWhile (fun c => !(c = '\n'))
        some (hashes + ws.length + content.length)
    else none
  else none

/-- Matcher for `/^(>\s+.*)$/gm`. -/
def matchBlockquote (prev : Option Char) (s : List Char) : Option Nat :=
  if atLineStart prev then
    match s with
    | c :: rest =>
      if c = '>' then
        let ws := rest.takeWhile jsIsWs
        if ws = [] then none
        else
          let content := (rest.drop ws.length).takeWhile (fun d => !(d = '\n'))
          some (1 + ws.length + content.length)
      else none
    | [] => none
  else none

/-- The list-item marker alternation `([\*\-\+]|\d+\.|[a-z]\.)`, tried in order. -/
def listMarkerLen (s : List Char) : Option Nat :=
  match s with
  | c :: rest =>
    if c = '*' || c = '-' || c = '+' then some 1
    else if c.isDigit then
      let ds := rest.takeWhile Char.isDigit
      if rest.getD ds.length ' ' = '.' then some (1 + ds.length + 1) else none
    else if 'a' ≤ c && c ≤ 'z' then
      if rest.getD 0 ' ' = '.' then some 2 else none
    else none
  | [] => none

/-- Matcher for `/^(\s*)([\*\-\+]|\d+\.|[a-z]\.)\s+.*$/gm` (the leading `\s*`
may cross newlines). -/
def matchListItem (prev : Option Char) (s : List Char) : Option Nat :=
  if atLineStart prev then
    let lead := s.takeWhile jsIsWs
    let rest := s.drop lead.length
    match listMarkerLen rest with
    | some ml =>
      let rest2 := rest.drop ml
      let ws := rest2.takeWhile jsIsWs
      if ws = [] then none
      else
        let content := (rest2.drop ws.length).takeWhile (fun c => !(c = '\n'))
        some (lead.length + ml + ws.length + content.length)
    | none => none
  else none

/-- Matcher for `/^(\s*)<li(?:\s[^>]*)?>.*?<\/li>$/gmi`: the lazy `.*?` cannot
cross a newline and must be closed by `</li>` at the line end. -/
def matchHtmlListItem (prev : Option Char) (s : List Char) : Option Nat :=
  if atLineStart prev then
    let lead := s.takeWhile jsIsWs
    let rest := s.drop lead.length
    match rest with
    | c :: r2 =>
      if c = '<' then
        match tryTagAt r2 "li".toList with
        | some openLen =>
          let lineRest := (r2.drop openLen).takeWhile (fun d => !(d = '\n'))
          if 5 ≤ lineRest.length && ciEndsWith lineRest "</li>".toList then
            some (lead.length + 1 + openLen + lineRest.length)
          else none
        | none => none
      else none
    | [] => none
  else none

/-- Matcher for `/^(<(h[1-6]|title)(?:\s[^>]*)?>.*?<\/\2>)$/gmi`. -/
def matchHtmlHeading (prev : Option Char) (s : List Char) : Option Nat :=
  if atLineStart prev then
    match s with
    | c :: r2 =>
      if c = '<' then
        let tagOpt : Option (List Char) :=
          match r2 with
          | a :: b :: _ =>
            if a.toLower = 'h' && '1' ≤ b && b ≤ '6' then some [a, b]
            else if isPreCI "title".toList r2 then some (r2.take 5)
            else none
          | _ => none
        match tagOpt with
        | some tag =>
          match tryTagAt r2 tag with
          | some openLen =>
            let lineRest := (r2.drop openLen).takeWhile (fun d => !(d = '\n'))
            if ciEndsWith lineRest ('<' :: '/' :: (tag ++ ['>'])) then
              some (1 + openLen + lineRest.length)
            else none
          | none => none
        | none => none
      else none
    | [] => none
  else none

/-- Matcher for `/^(\*\*\*|---|___)\s*$/gm`: after the three marker characters,
the greedy `\s*` backtracks so that `$` holds — it consumes up to the last
newline of the following whitespace run, or the whole run at end of input. -/
def matchHorizontalRule (prev : Option Char) (s : List Char) : Option Nat :=
  if atLineStart prev then
    if isPre "***".toList s || isPre "---".toList s || isPre "___".toList s then
      let rest := s.drop 3
      let ws := rest.takeWhile jsIsWs
      if rest.length = ws.length then some (3 + ws.length)
      else
        match lastIdxOf '\n' ws with
        | some j => some (3 + j)
        | none => none
    else none
  else none

/-- Matcher for `/^(\|.*\|)$/gm`: a line starting and ending with `|`, at least
two characters long. -/
def matchTableRow (prev : Option Char) (s : List Char) : Option Nat :=
  if atLineStart prev then
    match s with
    | c :: rest =>
      if c = '|' then
        let line := rest.takeWhile (fun d => !(d = '\n'))
        if line ≠ [] && line.getLastD ' ' = '|' then some (1 + line.length) else none
      else none
    | [] => none
  else none

/-- Matcher for `/^(<\/?[a-z][^>]*>)$/gmi`: `[^>]*` may cross newlines, the `>`
must be followed by a line end. -/
def matchHtmlTagLine (prev : Option Char) (s : List Char) : Option Nat :=
  if atLineStart prev then
    match s with
    | c :: rest =>
      if c = '<' then
        let (slashLen, r2) :=
          match rest with
          | d :: r => if d = '/' then (1, r) else (0, rest)
          | [] => (0, ([] : List Char))
        match r2 with
        | e :: r3 =>
          if e.isAlpha then
            let body := r3.takeWhile (fun d => !(d = '>'))
            if r3.getD body.length ' ' = '>' then
              let total := 1 + slashLen + 1 + body.length + 1
              if (s.drop total).getD 0 '\n' = '\n' then some total else none
            else none
          else none
        | [] => none
      else none
    | [] => none
  else none

/-- `protectStructureAndContent`: first the multi-line block passes, then the
twelve structural/inline rules in source order, each as a global replace with
the marker guard. -/
def protectStructureAndContent (text : List Char) (st : PTState) : List Char × PTState :=
  let (t0, s0) := protectMultiLineBlocks text st
  let (t1, s1) := replaceScan matchMdHeading structRepl none t0 s0
  let (t2, s2) := replaceScan matchHtmlHeading structRepl none t1 s1
  let (t3, s3) := replaceScan matchListItem structRepl none t2 s2
  let (t4, s4) := replaceScan matchHtmlListItem structRepl none t3 s3
  let (t5, s5) := replaceScan matchBlockquote structRepl none t4 s4
  let (t6, s6) := replaceScan matchHorizontalRule structRepl none t5 s5
  let (t7, s7) := replaceScan matchTableRow structRepl none t6 s6
  let (t8, s8) := replaceScan matchHtmlTagLine structRepl none t7 s7
  let (t9, s9) := replaceScan (fun _ u => matchURL u) structRepl none t8 s8
  let (t10, s10) := replaceScan matchEmail structRepl none t9 s9
  let (t11, s11) := replaceScan (fun _ u => matchInlineCode u) structRepl none t10 s10
  replaceScan (fun _ u => matchFilePath u) structRepl none t11 s11

/-- Is a line ``protected`` (contains any of the three structure-aware marker
classes)?  Shared by the normalizer, the three modes and the final cleanup. -/
def isProtectedLine (l : List Char) : Bool :=
  hasSub l "__STRUCTURED_".toList || hasSub l "__MULTILINE_BLOCK_".toList ||
  hasSub l "__HTML_BLOCK_".toList

/-- The second whitespace class of `normalizeWhitespaceWithStructure`
`[\r\f\v\u00A0\u1680\u2000-\u200A\u2028\u2029\u202F\u205F\u3000]`
(each occurrence becomes one space; it is applied after the space/tab collapse). -/
def uniClass2 (c : Char) : Bool :=
  c = '\x0d' || c = '\x0c' || c = '\x0b' ||
  c.toNat = 0xA0 || c.toNat = 0x1680 || (0x2000 ≤ c.toNat && c.toNat ≤ 0x200A) ||
  c.toNat = 0x2028 || c.toNat = 0x2029 || c.toNat = 0x202F || c.toNat = 0x205F ||
  c.toNat = 0x3000

/-- Per-line transform of the normalizer on a non-protected line: collapse
space/tab runs, map the remaining class to spaces, strip trailing whitespace. -/
def normalizeLine (l : List Char) : List Char :=
  jsTrimEnd ((collapseRuns (fun c => c = ' ' || c = '\t') l).map
    (fun c => if uniClass2 c then ' ' else c))

/-- `normalizeWhitespaceWithStructure`: line-by-line, protected lines verbatim. -/
def normalizeWhitespaceWithStructure (text : List Char) : List Char :=
  joinWith "\n".toList ((splitOnChar '\n' text).map
    (fun l => if isProtectedLine l then l else normalizeLine l))

/-- Join paragraph lines with single spaces (`currentParagraph.join(' ')`). -/
def joinSp (para : List (List Char)) : List Char :=
  joinWith " ".toList para

/-- Main loop of `processModeAWithStructure` over the line list, carrying
`processedLines` and `currentParagraph`. -/
def modeALoop : List (List Char) → List (List Char) → List (List Char) → List (List Char)
  | [], pls, para => if para = [] then pls else pls ++ [joinSp para]
  | l :: rest, pls, para =>
    let preserve := isProtectedLine l
    let trimmed := jsTrim l
    if preserve || trimmed = [] then
      let pls1 := if para = [] then pls else pls ++ [joinSp para]
      if preserve then modeALoop rest (pls1 ++ [l]) []
      else if pls1 ≠ [] && pls1.getLastD [] ≠ ([] : List Char) then
        modeALoop rest (pls1 ++ [([] : List Char)]) []
      else modeALoop rest pls1 []
    else modeALoop rest pls (para ++ [trimmed])

/-- Strip leading and trailing blank lines (the two `while` loops of the modes). -/
def stripBlankEnds (ls : List (List Char)) : List (List Char) :=
  ((ls.dropWhile (fun l => l = [])).reverse.dropWhile (fun l => l = [])).reverse

/-- `processModeAWithStructure`. -/
def processModeAWithStructure (text : List Char) : List Char :=
  joinWith "\n".toList (stripBlankEnds (modeALoop (splitOnChar '\n' text) [] []))

/-- Main loop of `processModeBWithStructure`. -/
def modeBLoop : List (List Char) → List (List Char) → List (List Char) → List (List Char)
  | [], pls, para => if para = [] then pls else pls ++ [joinSp para]
  | l :: rest, pls, para =>
    let trimmed := jsTrim l
    let structural := isProtectedLine l
    if trimmed = [] then
      let pls1 := if para = [] then pls else pls ++ [joinSp para]
      modeBLoop rest (pls1 ++ [([] : List Char)]) []
    else if structural then
      let pls1 := if para = [] then pls else pls ++ [joinSp para]
      modeBLoop rest (pls1 ++ [l]) []
    else modeBLoop rest pls (para ++ [trimmed])

/-- The blank-deduplication loop of `processModeBWithStructure` (`lastWasBlank`). -/
def dedupeBlanks : List (List Char) → Bool → List (List Char)
  | [], _ => []
  | x :: xs, lastBlank =>
    if x = [] then
      if lastBlank then dedupeBlanks xs true
      else ([] : List Char) :: dedupeBlanks xs true
    else x :: dedupeBlanks xs false

/-- `processModeBWithStructure`. -/
def processModeBWithStructure (text : List Char) : List Char :=
  joinWith "\n".toList (stripBlankEnds
    (dedupeBlanks (modeBLoop (splitOnChar '\n' text) [] []) false))

/-- First loop of `processModeCWithStructure` (accumulate content, flush at
protected lines). -/
def modeCLoop : List (List Char) → List (List Char) → List (List Char) → List (List Char)
  | [], pls, cur => if cur = [] then pls else pls ++ [joinSp cur]
  | l :: rest, pls, cur =>
    let trimmed := jsTrim l
    if isProtectedLine l then
      let pls1 := if cur = [] then pls else pls ++ [joinSp cur]
      modeCLoop rest (pls1 ++ [l]) []
    else if trimmed ≠ [] then modeCLoop rest pls (cur ++ [trimmed])
    else modeCLoop rest pls cur

/-- Second loop of `processModeCWithStructure` (fuse adjacent non-structural
segments). -/
def modeCJoin : List (List Char) → List (List Char) → List (List Char)
  | [], res => res
  | l :: rest, res =>
    if isProtectedLine l then modeCJoin rest (res ++ [l])
    else if jsTrim l ≠ [] then
      match res.getLast? with
      | some last =>
        if !(isProtectedLine last) then
          modeCJoin rest (res.dropLast ++ [last ++ ' ' :: jsTrim l])
        else modeCJoin rest (res ++ [jsTrim l])
      | none => modeCJoin rest (res ++ [jsTrim l])
    else modeCJoin rest res

/-- `processModeCWithStructure`. -/
def processModeCWithStructure (text : List Char) : List Char :=
  joinWith "\n".toList (modeCJoin (modeCLoop (splitOnChar '\n' text) [] []) [])

/-- Per-line cleanup of `finalCleanupWithStructure` on a non-protected,
non-blank line. -/
def cleanupLine (l : List Char) : List Char :=
  jsTrim (collapseRuns (fun c => c = ' ') l)

/-- Main loop of `finalCleanupWithStructure`: clean non-protected lines, keep
non-empty or protected lines. -/
def finalCleanupLoop : List (List Char) → List (List Char)
  | [] => []
  | l :: rest =>
    let isProt := isProtectedLine l
    let l1 := if !isProt && jsTrim l ≠ [] then cleanupLine l else l
    if l1 ≠ [] || isProt then l1 :: finalCleanupLoop rest
    else finalCleanupLoop rest

/-- `finalCleanupWithStructure`: clean lines, then drop trailing empty lines
(the source additionally re-checks that the empty line carries no marker). -/
def finalCleanupWithStructure (text : List Char) : List Char :=
  let cleaned := finalCleanupLoop (splitOnChar '\n' text)
  joinWith "\n".toList
    ((cleaned.reverse.dropWhile (fun l => l = [] && !(isProtectedLine l))).reverse)

/-- Stable insertion (descending key length) for the restorer's sort. -/
def insertByLen (x : List Char × List Char) :
    List (List Char × List Char) → List (List Char × List Char)
  | [] => [x]
  | y :: ys => if y.1.length < x.1.length then x :: y :: ys else y :: insertByLen x ys

/-- The restorer's `sort((a, b) => b.length - a.length)`: stable, longest key
first. -/
def sortTokensByLenDesc (t : List (List Char × List Char)) :
    List (List Char × List Char) :=
  t.foldl (fun acc x => insertByLen x acc) []

/-- `restoreProtectedContent` of the structure-aware pipeline: global literal
replacement of each token, longest token first. -/
def restoreProtectedContent (text : List Char) (st : PTState) : List Char :=
  (sortTokensByLenDesc st.table).foldl (fun acc kv => replaceSub kv.1 kv.2 acc) text

/-- `processBatch` of the structure-aware pipeline. -/
def processBatch (mode : List Char) (batch : List Char) (st : PTState) :
    List Char × PTState :=
  let (protectedText, st1) := protectStructureAndContent batch st
  let normalized := normalizeWhitespaceWithStructure protectedText
  let processed :=
    if mode = "A".toList then processModeAWithStructure normalized
    else if mode = "B".toList then processModeBWithStructure normalized
    else if mode = "C".toList then processModeCWithStructure normalized
    else normalized
  let restored := restoreProtectedContent processed st1
  (finalCleanupWithStructure restored, st1)

/-- `splitIntoBatches` (identical to the basic pipeline's). -/
def splitIntoBatches (text : List Char) : List (List Char) :=
  (splitBlank text).filter (fun b => jsTrim b ≠ [])

/-- `processText` of the structure-aware pipeline; note that unlike `script.js`
it feeds the *untrimmed* input to the batch splitter. -/
def processTextL (mode raw : List Char) : List Char :=
  if jsTrim raw = [] then []
  else
    let batches := splitIntoBatches raw
    let outs := (batches.foldl (fun acc b =>
      let (o, st1) := processBatch mode b acc.2
      (acc.1 ++ [o], st1)) (([] : List (List Char)), initState)).1
    joinWith "\n\n".toList outs

/-- String-level wrapper of the structure-aware `processTextL`, returning the
output together with the final protection state. -/
def processTextFull (mode raw : List Char) : List Char × PTState :=
  if jsTrim raw = [] then ([], initState)
  else
    let batches := splitIntoBatches raw
    let r := batches.foldl (fun acc b =>
      let (o, st1) := processBatch mode b acc.2
      (acc.1 ++ [o], st1)) (([] : List (List Char)), initState)
    (joinWith "\n\n".toList r.1, r.2)

/-- String-level wrapper. -/
def processText (mode input : String) : String :=
  String.mk (processTextL mode.toList input.toList)

end Struct

/-- The `{wordMatch, charMatch, contentMatch}` triple shown by the verifier. -/
structure VerificationResult where
  wordMatch : Bool
  charMatch : Bool
  contentMatch : Bool
deriving Repr, DecidableEq

/-- Worker for `dedupChars` with the set of already-seen characters. -/
def dedupCharsGo (seen : List Char) : List Char → List Char
  | [] => []
  | c :: cs =>
    if seen.contains c then dedupCharsGo seen cs
    else c :: dedupCharsGo (c :: seen) cs

/-- Distinct characters in first-occurrence order (JS `new Set(string)` iteration). -/
def dedupChars (l : List Char) : List Char :=
  dedupCharsGo [] l

namespace Script

/-- `verifyContentIntegrity`: word-count equality, non-whitespace length
equality, and — only when the lengths match — the character-set coverage loop
over the distinct characters of the original. -/
def verifyContentIntegrity (original processed : List Char) : VerificationResult :=
  let originalNonSpace := removeAll jsIsWs original
  let processedNonSpace := removeAll jsIsWs processed
  let wordMatch := jsWordCount original == jsWordCount processed
  let charMatch := originalNonSpace.length == processedNonSpace.length
  let contentVerified :=
    if charMatch then
      (dedupChars originalNonSpace).all (fun c => processedNonSpace.contains c)
    else false
  ⟨wordMatch, charMatch, contentVerified⟩

/-- The tail of `processText`: the output is put on display first, then the
verifier runs on (input, output); its result cannot change the output. -/
def processTextAndVerify (mode raw : List Char) : List Char × VerificationResult :=
  let out := processTextL mode raw
  (out, verifyContentIntegrity (jsTrim raw) out)

end Script

/-- Modelled from the claim wording (C5): word match as equality of
whitespace-split word counts. -/
def wordMatchSpec (o p : List Char) : Bool :=
  jsWordCount o == jsWordCount p

/-- Modelled from the claim wording (C5): char match as equality of
whitespace-stripped lengths. -/
def charMatchSpec (o p : List Char) : Bool :=
  (removeAll jsIsWs o).length == (removeAll jsIsWs p).length

/-- Modelled from the claim wording (C5): every distinct non-whitespace
character of the original appears in the output's non-whitespace character
set. -/
def coverageSpec (o p : List Char) : Bool :=
  (removeAll jsIsWs o).all (fun c => (removeAll jsIsWs p).contains c)

/-- Modelled from the claim wording (C8): "processes each batch independently" —
each batch handled with a fresh protection state instead of the shared one. -/
def processTextIndependent (mode raw : List Char) : List Char :=
  let input := jsTrim raw
  if input = [] then []
  else
    joinWith "\n\n".toList
      ((Script.splitIntoBatches input).map
        (fun b => (Script.processBatch mode b initState).1))

/-! ## Supporting lemmas -/

/-- Folding `all` through the dedup worker: characters already seen may be
skipped provided they satisfy the predicate. -/
theorem dedupGo_all (f : Char → Bool) : ∀ (l seen : List Char),
    (∀ c, c ∈ seen → f c = true) → (dedupCharsGo seen l).all f = l.all f := by
  intro l
  induction l with
  | nil => intro seen _; simp [dedupCharsGo]
  | cons c cs ih =>
    intro seen hseen
    simp only [dedupCharsGo]
    by_cases hc : seen.contains c = true
    · rw [if_pos hc, List.all_cons, hseen c (by simpa using hc), Bool.true_and]
      exact ih seen hseen
    · rw [if_neg hc]
      simp only [List.all_cons]
      cases hfc : f c with
      | false => simp
      | true =>
        simp only [Bool.true_and]
        refine ih (c :: seen) ?_
        intro d hd
        cases hd with
        | head => exact hfc
        | tail _ hmem => exact hseen d hmem

/-- `all` over the distinct characters is `all` over the whole list. -/
theorem dedupChars_all (f : Char → Bool) (l : List Char) :
    (dedupChars l).all f = l.all f :=
  dedupGo_all f l [] (by intro c hc; cases hc)

/-- A boolean guard with a `false` else-branch is a conjunction. -/
theorem if_else_false (b : Bool) (x : Bool) : (if b then x else false) = (b && x) := by
  cases b <;> simp

/-! ## Claim theorems -/

/-- C1 (counterexample): calling the pipeline with the unknown mode value `"D"`
does not fail before processing — it runs the whole pipeline and returns the
processed (whitespace-collapsed) input, so no `ConfigError`-style rejection
exists in the code. -/
theorem C1_counterexample :
    Script.processText "D" "a  b" = "a b" ∧ ("a b" : String) ≠ "a  b" :=
  ⟨by decide, by decide⟩

/-- C1 (amended): a mode value outside `{A, B, C}` silently defaults — the batch
is protected, normalized, restored and cleaned with the mode-specific step
skipped, and no error of any kind is raised. -/
theorem C1_amended : ∀ (mode batch : List Char) (st : PTState),
    mode ≠ "A".toList → mode ≠ "B".toList → mode ≠ "C".toList →
    Script.processBatch mode batch st =
      (Script.finalCleanup (Script.restoreProtectedContent
        (Script.normalizeWhitespace (Script.protectContent batch st).1)
        (Script.protectContent batch st).2),
       (Script.protectContent batch st).2) := by
  intro mode batch st h1 h2 h3
  simp only [Script.processBatch, if_neg h1, if_neg h2, if_neg h3]

/-- Witness for `C1_amended` at a concrete unknown mode. -/
theorem C1_amended_witness :
    Script.processBatch "D".toList "a  b".toList initState =
      (Script.finalCleanup (Script.restoreProtectedContent
        (Script.normalizeWhitespace (Script.protectContent "a  b".toList initState).1)
        (Script.protectContent "a  b".toList initState).2),
       (Script.protectContent "a  b".toList initState).2) :=
  C1_amended "D".toList "a  b".toList initState (by decide) (by decide) (by decide)

/-- C2 (counterexample): on the nested-block input `<div>` around a fenced code
block, the code fence is protected as `__MULTILINE_BLOCK_1__`, that token ends
up inside the recorded original of `__HTML_BLOCK_2__`, and the longest-first
restoration never restores it — `processText` returns token-polluted output
(not the original input) and raises no error. -/
theorem C2_counterexample :
    (("__MULTILINE_BLOCK_1__".toList, "```\nx\n```".toList) ∈
      (Struct.processTextFull "A".toList "<div>\n```\nx\n```\n</div>".toList).2.table) ∧
    hasSub (Struct.processTextFull "A".toList "<div>\n```\nx\n```\n</div>".toList).1
      "__MULTILINE_BLOCK_1__".toList = true ∧
    (Struct.processTextFull "A".toList "<div>\n```\nx\n```\n</div>".toList).1 ≠
      "<div>\n```\nx\n```\n</div>".toList :=
  ⟨by decide, by decide, by decide⟩

/-- C2 (amended): on a restoration lookup miss the pipeline returns the
partially-restored text containing the raw token marker as-is; there is no
error indicator and no fallback to the original input. -/
theorem C2_amended :
    Struct.processText "A" "<div>\n```\nx\n```\n</div>" =
      "<div>\n__MULTILINE_BLOCK_1__\n</div>" := by decide

/-- C3 (counterexample): an input that itself contains a token-marker pattern
survives to the output verbatim, so the final output is not always free of
token marker patterns. -/
theorem C3_counterexample :
    Script.processText "A" "__PROTECTED_1__" = "__PROTECTED_1__" ∧
    hasSub ("__PROTECTED_1__" : String).toList "__PROTECTED_".toList = true :=
  ⟨by decide, by decide⟩

/-- C4 (code bug, evaluation at the failing input): the inline-code span
`` `a  b` `` is protected and restored verbatim, but `finalCleanup` then
collapses its double space, so the span does not appear character-for-character
in the output — contradicting the source's own comment ("Trim but preserve
intentional spacing in protected content") and spec §4.6. -/
theorem C4_failing_input :
    Script.processText "A" "`a  b`" = "`a b`" ∧
    hasSub (Script.processTextL "A".toList "`a  b`".toList) "`a  b`".toList = false :=
  ⟨by decide, by decide⟩

/-- C5 (counterexample): the verifier's `contentMatch` does not require all
three checks — on original `"a b"` and output `"ab"` the word counts differ
(2 vs 1) yet `contentMatch` still passes. -/
theorem C5_counterexample :
    (Script.verifyContentIntegrity "a b".toList "ab".toList).contentMatch = true ∧
    (Script.verifyContentIntegrity "a b".toList "ab".toList).wordMatch = false :=
  ⟨by decide, by decide⟩

/-- C5 (amended): `wordMatch` is whitespace-split word-count equality,
`charMatch` is whitespace-stripped length equality, content coverage is
set membership of the original's distinct non-whitespace characters in the
output's; `contentMatch` passes iff `charMatch` and coverage pass (the word
check does not feed into it); and the verifier never alters the output that
`processText` returns. -/
theorem C5_amended : ∀ (o p mode raw : List Char),
    (Script.verifyContentIntegrity o p).wordMatch = wordMatchSpec o p ∧
    (Script.verifyContentIntegrity o p).charMatch = charMatchSpec o p ∧
    (Script.verifyContentIntegrity o p).contentMatch =
      (charMatchSpec o p && coverageSpec o p) ∧
    (Script.processTextAndVerify mode raw).1 = Script.processTextL mode raw := by
  intro o p mode raw
  refine ⟨rfl, rfl, ?_, rfl⟩
  simp only [Script.verifyContentIntegrity, charMatchSpec, coverageSpec]
  rw [if_else_false, dedupChars_all]

/-- C7 (counterexample): the pipeline is not idempotent — in HardNormalize mode
the input `"http://a\n`b\nc`"` processes to `"http://a`b\nc`"`, but a second
pass greedily re-protects `http://a`b` as a URL, leaving the newline of the
code span unshielded, and yields the different output `"http://a`bc`"`. -/
theorem C7_counterexample :
    Script.processText "C" (Script.processText "C" "http://a\n`b\nc`") ≠
      Script.processText "C" "http://a\n`b\nc`" ∧
    Script.processText "C" "http://a\n`b\nc`" = "http://a`b\nc`" ∧
    Script.processText "C" "http://a`b\nc`" = "http://a`bc`" :=
  ⟨by decide, by decide, by decide⟩

/-- C8 (counterexample): batches are not processed independently — the
protection table is shared across batches of one call, so the second batch
`__PROTECTED_1__` (which protection leaves alone) is rewritten by the first
batch's table entry during restoration; processing that batch on its own
leaves it unchanged. -/
theorem C8_counterexample :
    Script.processText "A" "http://x\n\n__PROTECTED_1__" = "http://x\n\nhttp://x" ∧
    String.mk (processTextIndependent "A".toList "http://x\n\n__PROTECTED_1__".toList) =
      "http://x\n\n__PROTECTED_1__" ∧
    Script.processText "A" "http://x\n\n__PROTECTED_1__" ≠
      String.mk (processTextIndependent "A".toList "http://x\n\n__PROTECTED_1__".toList) :=
  ⟨by decide, by decide, by decide⟩

/-- C9: empty or whitespace-only input yields empty output in both pipelines
(the early return fires before any batch is processed) and no error is
raised. -/
theorem C9_empty_input : ∀ (mode s : String),
    jsTrim s.toList = [] →
    Script.processText mode s = "" ∧ Struct.processText mode s = "" := by
  intro mode s h
  constructor
  · show String.mk (Script.processTextL mode.toList s.toList) = ""
    unfold Script.processTextL
    rw [h]
    rfl
  · show String.mk (Struct.processTextL mode.toList s.toList) = ""
    unfold Struct.processTextL
    rw [if_pos h]

/-- Witness for `C9_empty_input` on a concrete whitespace-only input. -/
theorem C9_empty_input_witness :
    Script.processText "A" "  \n " = "" ∧ Struct.processText "A" "  \n " = "" :=
  C9_empty_input "A" "  \n " (by decide)

/-- C6 (counterexample): the structure-aware normalizer does not collapse a
mixed run of horizontal whitespace to one space — on the line
`a<TAB><NBSP>b` the space/tab collapse runs first and the no-break space is
mapped to a space only afterwards, leaving two consecutive spaces. -/
theorem C6_counterexample :
    Struct.normalizeWhitespaceWithStructure "a\t\u00A0b".toList =
      "a\u0020\u0020b".toList ∧
    ("a\u0020\u0020b" : String) ≠ "a b" :=
  ⟨by decide, by decide⟩

/-! ## Mode A = Mode B in the structure-aware pipeline (claim C10) -/

/-- A successful `isPre` exhibits the pattern as a list prefix. -/
theorem isPre_exists : ∀ (pat s : List Char), isPre pat s = true →
    ∃ post, s = pat ++ post := by
  intro pat
  induction pat with
  | nil => intro s _; exact ⟨s, rfl⟩
  | cons p ps ih =>
    intro s h
    cases s with
    | nil => simp [isPre] at h
    | cons c cs =>
      simp only [isPre, Bool.and_eq_true, decide_eq_true_eq] at h
      obtain ⟨post, hpost⟩ := ih cs h.2
      exact ⟨post, by rw [h.1, hpost]; simp⟩

/-- A successful `hasSub` exhibits the pattern as an infix. -/
theorem hasSub_infix : ∀ (s pat : List Char), hasSub s pat = true →
    ∃ pre post, s = pre ++ pat ++ post := by
  intro s
  induction s with
  | nil =>
    intro pat h
    unfold hasSub at h
    split at h
    · obtain ⟨post, hp⟩ := isPre_exists pat [] (by assumption)
      exact ⟨[], post, hp⟩
    · simp at h
  | cons c cs ih =>
    intro pat h
    unfold hasSub at h
    split at h
    · obtain ⟨post, hp⟩ := isPre_exists pat (c :: cs) (by assumption)
      exact ⟨[], post, hp⟩
    · obtain ⟨pre, post, hp⟩ := ih pat h
      exact ⟨c :: pre, post, by rw [List.cons_append, hp]; simp⟩

/-- Membership transfers from pattern to string through `hasSub`. -/
theorem mem_of_hasSub (s pat : List Char) (c : Char) (hc : c ∈ pat)
    (h : hasSub s pat = true) : c ∈ s := by
  obtain ⟨pre, post, hp⟩ := hasSub_infix s pat h
  rw [hp]
  simp only [List.mem_append]
  exact Or.inl (Or.inr hc)

/-- If the trim is empty, every character is whitespace. -/
theorem trim_nil_all_ws (l : List Char) (h : jsTrim l = []) :
    ∀ c ∈ l, jsIsWs c = true := by
  unfold jsTrim at h
  have h1 : (l.dropWhile jsIsWs).reverse.dropWhile jsIsWs = [] := by
    have := congrArg List.reverse h
    simpa using this
  have h2 : ∀ c ∈ (l.dropWhile jsIsWs).reverse, jsIsWs c = true := by
    intro c hc
    exact List.dropWhile_eq_nil_iff.mp h1 c hc
  have h3 : ∀ c ∈ l.dropWhile jsIsWs, jsIsWs c = true := by
    intro c hc
    exact h2 c (by simpa using hc)
  intro c hc
  have hsplit : c ∈ l.takeWhile jsIsWs ++ l.dropWhile jsIsWs := by
    rw [List.takeWhile_append_dropWhile]
    exact hc
  rcases List.mem_append.mp hsplit with h4 | h4
  · exact List.mem_takeWhile_imp h4
  · exact h3 c h4

/-- A protected line is non-empty. -/
theorem protected_ne_nil (l : List Char) (h : Struct.isProtectedLine l = true) :
    l ≠ [] := by
  intro he
  rw [he] at h
  simp [Struct.isProtectedLine, hasSub, isPre] at h

/-- A protected line has a non-empty trim (token markers contain `_`, which is
not whitespace). -/
theorem protected_trim_ne_nil (l : List Char) (h : Struct.isProtectedLine l = true) :
    jsTrim l ≠ [] := by
  intro he
  have hall := trim_nil_all_ws l he
  have hu : ('_' : Char) ∈ l := by
    unfold Struct.isProtectedLine at h
    simp only [Bool.or_eq_true] at h
    rcases h with (h | h) | h
    · exact mem_of_hasSub _ _ '_' (by decide) h
    · exact mem_of_hasSub _ _ '_' (by decide) h
    · exact mem_of_hasSub _ _ '_' (by decide) h
  have := hall '_' hu
  simp [jsIsWs] at this

/-- The A-side view of the B accumulator: deduplicate blanks, drop leading
blanks. -/
def normAcc (ls : List (List Char)) : List (List Char) :=
  (Struct.dedupeBlanks ls false).dropWhile (fun l => l = [])

/-- The `lastWasBlank` flag after processing `ls` starting from `f`. -/
def flagAfter (ls : List (List Char)) (f : Bool) : Bool :=
  ls.foldl (fun _ x => decide (x = [])) f

/-- A joined paragraph of non-empty lines is non-empty. -/
theorem joinSp_ne_nil : ∀ para : List (List Char), para ≠ [] →
    (∀ q ∈ para, q ≠ ([] : List Char)) → Struct.joinSp para ≠ [] := by
  intro para hne hq
  match para with
  | [x] =>
    simpa [Struct.joinSp, joinWith] using hq x (by simp)
  | x :: y :: rest =>
    simp [Struct.joinSp, joinWith]

/-- `dropWhile` distributes over appending a non-`p` element. -/
theorem dropWhile_append_keep (p : List Char → Bool) (x : List Char)
    (hx : p x = false) : ∀ ys : List (List Char),
    (ys ++ [x]).dropWhile p = ys.dropWhile p ++ [x] := by
  intro ys
  induction ys with
  | nil => simp [List.dropWhile, hx]
  | cons a as ih =>
    simp only [List.cons_append, List.dropWhile]
    cases ha : p a
    · simp
    · simpa using ih

/-- `dropWhile` over appending a `p` element. -/
theorem dropWhile_append_drop (p : List Char → Bool) (x : List Char)
    (hx : p x = true) : ∀ ys : List (List Char),
    (ys ++ [x]).dropWhile p =
      (if ys.dropWhile p = [] then [] else ys.dropWhile p ++ [x]) := by
  intro ys
  induction ys with
  | nil => simp [List.dropWhile, hx]
  | cons a as ih =>
    simp only [List.cons_append, List.dropWhile_cons]
    cases ha : p a
    · simp
    · simpa using ih

/-- The default of `getLastD` is irrelevant on a non-empty list. -/
theorem getLastD_default_irrel (l : List (List Char)) (h : l ≠ []) (d e : List Char) :
    l.getLastD d = l.getLastD e := by
  cases l with
  | nil => exact absurd rfl h
  | cons a as =>
    have hs : (a :: as).getLast?.isSome := by
      rw [List.getLast?_isSome]
      simp
    obtain ⟨x, hx⟩ := Option.isSome_iff_exists.mp hs
    simp [List.getLastD_eq_getLast?, hx]

/-- A non-empty `dropWhile` suffix has the same last element as the list. -/
theorem dropWhile_getLastD (p : List Char → Bool) (d : List Char) :
    ∀ l : List (List Char), l.dropWhile p ≠ [] →
    (l.dropWhile p).getLastD d = l.getLastD d := by
  intro l
  induction l with
  | nil => intro h; simp [List.dropWhile] at h
  | cons a as ih =>
    intro h
    simp only [List.dropWhile_cons] at h ⊢
    cases ha : p a
    · simp
    · rw [ha] at h
      simp only [if_true, eq_self_iff_true] at h ⊢
      have hasne : as ≠ [] := by
        intro he
        rw [he] at h
        simp [List.dropWhile] at h
      rw [ih h, List.getLastD_cons]
      exact getLastD_default_irrel as hasne d a

/-- If deduplication yields nothing, the final flag equals the initial flag. -/
theorem dedupe_nil_flag : ∀ (ls : List (List Char)) (f : Bool),
    Struct.dedupeBlanks ls f = [] → flagAfter ls f = f := by
  intro ls
  induction ls with
  | nil => intro f _; rfl
  | cons a as ih =>
    intro f h
    simp only [Struct.dedupeBlanks] at h
    by_cases ha : a = ([] : List Char)
    · rw [if_pos ha] at h
      cases hf : f
      · rw [hf] at h; simp at h
      · rw [hf] at h
        simp only [if_pos rfl] at h
        have := ih true h
        simp only [flagAfter, List.foldl_cons] at *
        rw [ha]
        simpa using this
    · rw [if_neg ha] at h
      simp at h

/-- Unfolding equations for `dedupeBlanks`. -/
theorem dedupe_cons_blank_false (as : List (List Char)) :
    Struct.dedupeBlanks (([] : List Char) :: as) false =
      ([] : List Char) :: Struct.dedupeBlanks as true := by
  simp [Struct.dedupeBlanks]

/-- Unfolding equation: a blank head with the flag set is dropped. -/
theorem dedupe_cons_blank_true (as : List (List Char)) :
    Struct.dedupeBlanks (([] : List Char) :: as) true =
      Struct.dedupeBlanks as true := by
  simp [Struct.dedupeBlanks]

/-- Unfolding equation: a non-blank head is kept and resets the flag. -/
theorem dedupe_cons_ne (a : List Char) (as : List (List Char)) (f : Bool)
    (ha : a ≠ []) :
    Struct.dedupeBlanks (a :: as) f = a :: Struct.dedupeBlanks as false := by
  simp [Struct.dedupeBlanks, ha]

/-- Unfolding equations for `flagAfter`. -/
theorem flagAfter_cons (a : List Char) (as : List (List Char)) (f : Bool) :
    flagAfter (a :: as) f = flagAfter as (decide (a = [])) := rfl

/-- Deduplication distributes over appending one element, with the tail
determined by the running flag. -/
theorem dedupe_append (x : List Char) : ∀ (ls : List (List Char)) (f : Bool),
    Struct.dedupeBlanks (ls ++ [x]) f =
      Struct.dedupeBlanks ls f ++
        (if x = [] then (if flagAfter ls f then [] else [([] : List Char)]) else [x]) := by
  intro ls
  induction ls with
  | nil =>
    intro f
    by_cases hx : x = ([] : List Char)
    · cases f <;> simp [Struct.dedupeBlanks, flagAfter, hx]
    · simp [Struct.dedupeBlanks, flagAfter, hx]
  | cons a as ih =>
    intro f
    rw [List.cons_append]
    by_cases ha : a = ([] : List Char)
    · subst ha
      rw [flagAfter_cons]
      have hdec : decide (([] : List Char) = []) = true := by decide
      rw [hdec]
      cases f
      · rw [dedupe_cons_blank_false, dedupe_cons_blank_false, ih true, List.cons_append]
      · rw [dedupe_cons_blank_true, dedupe_cons_blank_true, ih true]
    · rw [dedupe_cons_ne a _ f ha, dedupe_cons_ne a as f ha, flagAfter_cons,
        ih false, List.cons_append]
      have : decide (a = ([] : List Char)) = false := by
        simpa using ha
      rw [this]

/-- The final flag is `true` exactly when the deduplicated output (if any)
ends with a blank. -/
theorem dedupe_last_flag : ∀ (ls : List (List Char)) (f : Bool),
    Struct.dedupeBlanks ls f ≠ [] →
    (((Struct.dedupeBlanks ls f).getLastD [] = []) ↔ flagAfter ls f = true) := by
  intro ls
  induction ls with
  | nil => intro f h; exact absurd rfl h
  | cons a as ih =>
    intro f h
    by_cases ha : a = ([] : List Char)
    · subst ha
      rw [flagAfter_cons]
      have hdec : decide (([] : List Char) = []) = true := by decide
      rw [hdec]
      cases f
      · rw [dedupe_cons_blank_false]
        by_cases hd : Struct.dedupeBlanks as true = []
        · rw [hd]
          constructor
          · intro _
            exact dedupe_nil_flag as true hd
          · intro _
            rfl
        · rw [List.getLastD_cons, getLastD_default_irrel _ hd ([] : List Char) ([] : List Char)]
          exact ih true hd
      · rw [dedupe_cons_blank_true] at h ⊢
        exact ih true h
    · rw [dedupe_cons_ne a as f ha] at h ⊢
      rw [flagAfter_cons]
      have hdec : decide (a = ([] : List Char)) = false := by simpa using ha
      rw [hdec, List.getLastD_cons]
      by_cases hd : Struct.dedupeBlanks as false = []
      · rw [hd]
        simp only [List.getLastD_nil]
        constructor
        · intro hx; exact absurd hx ha
        · intro hx
          rw [dedupe_nil_flag as false hd] at hx
          exact absurd hx (by simp)
      · rw [getLastD_default_irrel _ hd a ([] : List Char)]
        exact ih false hd

/-- `normAcc` ignores an appended non-blank line. -/
theorem normAcc_append_ne (ys : List (List Char)) (x : List Char) (hx : x ≠ []) :
    normAcc (ys ++ [x]) = normAcc ys ++ [x] := by
  unfold normAcc
  rw [dedupe_append x ys false, if_neg hx]
  exact dropWhile_append_keep _ x (by simpa using hx) _

/-- `normAcc` over an appended blank line: dropped while the normalized
accumulator is empty or already ends with a blank, kept otherwise. -/
theorem normAcc_append_blank (ys : List (List Char)) :
    normAcc (ys ++ [([] : List Char)]) =
      (if normAcc ys = [] then []
       else if (normAcc ys).getLastD [] = [] then normAcc ys
       else normAcc ys ++ [([] : List Char)]) := by
  unfold normAcc
  rw [dedupe_append ([] : List Char) ys false, if_pos rfl]
  by_cases hflag : flagAfter ys false = true
  · rw [if_pos hflag]
    simp only [List.append_nil]
    by_cases hz : (Struct.dedupeBlanks ys false).dropWhile (fun l => l = []) = []
    · rw [if_pos hz, hz]
    · rw [if_neg hz]
      have hdne : Struct.dedupeBlanks ys false ≠ [] := by
        intro he
        rw [he] at hz
        simp [List.dropWhile] at hz
      have hlast := (dedupe_last_flag ys false hdne).mpr hflag
      rw [if_pos]
      rw [dropWhile_getLastD _ ([] : List Char) _ hz]
      exact hlast
  · rw [if_neg hflag]
    rw [dropWhile_append_drop _ ([] : List Char) (by decide) _]
    by_cases hz : (Struct.dedupeBlanks ys false).dropWhile (fun l => l = []) = []
    · rw [if_pos hz, if_pos hz]
    · rw [if_neg hz, if_neg hz, if_neg]
      intro hlast
      have hdne : Struct.dedupeBlanks ys false ≠ [] := by
        intro he
        rw [he] at hz
        simp [List.dropWhile] at hz
      rw [dropWhile_getLastD _ _ _ hz] at hlast
      have := (dedupe_last_flag ys false hdne).mp hlast
      exact hflag this

/-- Flushing the paragraph commutes with the accumulator normalization. -/
theorem normAcc_flush (ys para : List (List Char))
    (hw : ∀ q ∈ para, q ≠ ([] : List Char)) :
    (if para = [] then normAcc ys else normAcc ys ++ [Struct.joinSp para]) =
      normAcc (if para = [] then ys else ys ++ [Struct.joinSp para]) := by
  by_cases hp : para = []
  · rw [if_pos hp, if_pos hp]
  · rw [if_neg hp, if_neg hp, normAcc_append_ne ys _ (joinSp_ne_nil para hp hw)]

/-- Main loop correspondence: running mode A's loop on the normalized view of
mode B's accumulator gives the normalized view of mode B's loop. -/
theorem modeLoop_AB : ∀ (lines : List (List Char)) (para plsB : List (List Char)),
    (∀ q ∈ para, q ≠ ([] : List Char)) →
    Struct.modeALoop lines (normAcc plsB) para =
      normAcc (Struct.modeBLoop lines plsB para) := by
  intro lines
  induction lines with
  | nil =>
    intro para plsB hw
    simp only [Struct.modeALoop, Struct.modeBLoop]
    exact normAcc_flush plsB para hw
  | cons l rest ih =>
    intro para plsB hw
    by_cases hp : Struct.isProtectedLine l = true
    · have htne : jsTrim l ≠ [] := protected_trim_ne_nil l hp
      simp only [Struct.modeALoop, Struct.modeBLoop, hp, htne, if_true, if_neg htne,
        Bool.true_or, decide_eq_true_eq]
      rw [normAcc_flush plsB para hw,
        ← normAcc_append_ne _ l (protected_ne_nil l hp)]
      exact ih [] _ (by intro q hq; cases hq)
    · have hpf : Struct.isProtectedLine l = false := by
        cases hx : Struct.isProtectedLine l
        · rfl
        · exact absurd hx hp
      by_cases ht : jsTrim l = []
      · simp only [Struct.modeALoop, Struct.modeBLoop, hpf, ht, Bool.false_or,
          decide_eq_true_eq, if_pos rfl, if_true, Bool.false_eq_true, if_false]
        rw [normAcc_flush plsB para hw]
        rw [← ih [] ((if para = [] then plsB else plsB ++ [Struct.joinSp para]) ++
              [([] : List Char)]) (by intro q hq; cases hq)]
        rw [normAcc_append_blank]
        by_cases h1 : normAcc (if para = [] then plsB else plsB ++ [Struct.joinSp para]) = []
        · rw [if_pos h1, h1]
          have hc : (decide (¬([] : List (List Char)) = []) &&
              decide (¬(([] : List (List Char)).getLastD [] = []))) = false := by decide
          simp only [h1, hc, Bool.false_eq_true, if_false]
        · rw [if_neg h1]
          by_cases h2 : (normAcc (if para = [] then plsB else plsB ++ [Struct.joinSp para])).getLastD [] = []
          · rw [if_pos h2]
            have hc2 : decide (¬(normAcc (if para = [] then plsB else
                plsB ++ [Struct.joinSp para])).getLastD [] = []) = false := by
              rw [decide_eq_false_iff_not]
              exact not_not_intro h2
            rw [hc2, Bool.and_false]
            simp only [Bool.false_eq_true, if_false]
          · rw [if_neg h2]
            have hcA : decide (¬normAcc (if para = [] then plsB else
                plsB ++ [Struct.joinSp para]) = []) = true := by
              rw [decide_eq_true_iff]
              exact h1
            have hcB : decide (¬(normAcc (if para = [] then plsB else
                plsB ++ [Struct.joinSp para])).getLastD [] = []) = true := by
              rw [decide_eq_true_iff]
              exact h2
            rw [hcA, hcB]
            simp only [Bool.and_self, if_true]
      · have htd : decide (jsTrim l = []) = false := by
          simpa using ht
        simp only [Struct.modeALoop, Struct.modeBLoop, hpf, htd, Bool.false_or,
          Bool.false_eq_true, if_false, if_neg ht]
        exact ih (para ++ [jsTrim l]) plsB (by
          intro q hq
          rcases List.mem_append.mp hq with h1 | h1
          · exact hw q h1
          · rw [List.mem_singleton.mp h1]; exact ht)

/-- `dropWhile` is idempotent. -/
theorem dropWhile_idem (p : List Char → Bool) : ∀ l : List (List Char),
    (l.dropWhile p).dropWhile p = l.dropWhile p := by
  intro l
  induction l with
  | nil => simp [List.dropWhile]
  | cons a as ih =>
    simp only [List.dropWhile_cons]
    cases ha : p a
    · simp [List.dropWhile_cons, ha]
    · simpa using ih

/-- The two structure-aware mode engines are extensionally equal. -/
theorem modeA_eq_modeB (t : List Char) :
    Struct.processModeAWithStructure t = Struct.processModeBWithStructure t := by
  unfold Struct.processModeAWithStructure Struct.processModeBWithStructure
  have h := modeLoop_AB (splitOnChar '\n' t) [] [] (by intro q hq; cases hq)
  have hn : normAcc ([] : List (List Char)) = [] := rfl
  rw [hn] at h
  rw [h]
  unfold Struct.stripBlankEnds normAcc
  rw [dropWhile_idem]

/-- `processBatch` of the structure-aware pipeline does not distinguish modes
A and B. -/
theorem processBatch_AB (b : List Char) (st : PTState) :
    Struct.processBatch "A".toList b st = Struct.processBatch "B".toList b st := by
  unfold Struct.processBatch
  have h1 : ("A".toList = "A".toList) = True := by simp
  have h2 : ("B".toList = "A".toList) = False := by simp
  have h3 : ("B".toList = "B".toList) = True := by simp
  simp only [h1, h2, h3, if_true, if_false, modeA_eq_modeB]

/-- C10: for every raw input, the structure-aware `processText` produces
identical output in SinglePara (mode A) and CleanPara (mode B): the two mode
engines agree on every normalized batch, because batch splitting and the
blank-line handling of the two strategies coincide after deduplication. -/
theorem C10_modeA_eq_modeB : ∀ raw : String,
    Struct.processText "A" raw = Struct.processText "B" raw := by
  intro raw
  unfold Struct.processText Struct.processTextL
  have hfn : Struct.processBatch "A".toList = Struct.processBatch "B".toList := by
    funext b st
    exact processBatch_AB b st
  rw [hfn]

/-! ## The structure-aware normalizer, line by line (claim C6) -/

/-- `splitOnChar` never returns an empty piece list. -/
theorem splitOnChar_ne_nil (sep : Char) : ∀ s : List Char, splitOnChar sep s ≠ [] := by
  intro s
  induction s with
  | nil => simp [splitOnChar]
  | cons c cs ih =>
    simp only [splitOnChar]
    by_cases hc : c = sep
    · simp [hc]
    · rw [if_neg hc]
      cases h : splitOnChar sep cs with
      | nil => simp
      | cons r rs => simp

/-- Pieces of `splitOnChar` do not contain the separator. -/
theorem splitOnChar_no_sep (sep : Char) : ∀ (s : List Char) (l : List Char),
    l ∈ splitOnChar sep s → sep ∉ l := by
  intro s
  induction s with
  | nil =>
    intro l hl
    simp only [splitOnChar, List.mem_singleton] at hl
    simp [hl]
  | cons c cs ih =>
    intro l hl
    simp only [splitOnChar] at hl
    by_cases hc : c = sep
    · rw [if_pos hc] at hl
      cases hl with
      | head => simp
      | tail _ h => exact ih l h
    · rw [if_neg hc] at hl
      cases hsp : splitOnChar sep cs with
      | nil => exact absurd hsp (splitOnChar_ne_nil sep cs)
      | cons r rs =>
        rw [hsp] at hl
        cases hl with
        | head =>
          intro hmem
          cases hmem with
          | head => exact hc rfl
          | tail _ h2 => exact ih r (by rw [hsp]; exact List.mem_cons_self r rs) h2
        | tail _ h => exact ih l (by rw [hsp]; exact List.mem_cons_of_mem r h)

/-- Splitting a separator-free string is the identity. -/
theorem splitOnChar_of_no_sep (sep : Char) : ∀ s : List Char, sep ∉ s →
    splitOnChar sep s = [s] := by
  intro s
  induction s with
  | nil => intro _; rfl
  | cons c cs ih =>
    intro h
    have hc : ¬(c = sep) := by
      intro he
      exact h (by rw [he]; exact List.mem_cons_self _ _)
    have hcs : sep ∉ cs := fun hm => h (List.mem_cons_of_mem c hm)
    simp only [splitOnChar, if_neg hc, ih hcs]

/-- Splitting after a leading separator-free chunk plus a separator. -/
theorem splitOnChar_append (sep : Char) : ∀ (x t : List Char), sep ∉ x →
    splitOnChar sep (x ++ sep :: t) = x :: splitOnChar sep t := by
  intro x
  induction x with
  | nil =>
    intro t _
    simp [splitOnChar]
  | cons c cs ih =>
    intro t h
    have hc : ¬(c = sep) := by
      intro he
      exact h (by rw [he]; exact List.mem_cons_self _ _)
    have hcs : sep ∉ cs := fun hm => h (List.mem_cons_of_mem c hm)
    simp only [List.cons_append, List.append_eq, splitOnChar, if_neg hc, ih t hcs]

/-- Splitting inverts joining for a non-empty list of separator-free pieces. -/
theorem splitOnChar_joinWith (sep : Char) : ∀ ls : List (List Char), ls ≠ [] →
    (∀ l ∈ ls, sep ∉ l) → splitOnChar sep (joinWith [sep] ls) = ls := by
  intro ls
  induction ls with
  | nil => intro h _; exact absurd rfl h
  | cons x rest ih =>
    intro _ hfree
    cases rest with
    | nil =>
      simp only [joinWith]
      exact splitOnChar_of_no_sep sep x (hfree x (List.mem_cons_self _ _))
    | cons y ys =>
      have hx : sep ∉ x := hfree x (List.mem_cons_self _ _)
      have : joinWith [sep] (x :: y :: ys) = x ++ sep :: joinWith [sep] (y :: ys) := by
        simp [joinWith]
      rw [this, splitOnChar_append sep x _ hx,
        ih (by simp) (fun l hl => hfree l (List.mem_cons_of_mem x hl))]

/-- Every character of a collapsed string is a space or a non-class character
of the input. -/
theorem mem_collapseRunsGo (p : Char → Bool) : ∀ (b : Bool) (l : List Char)
    (c : Char), c ∈ collapseRunsGo p b l → c = ' ' ∨ (c ∈ l ∧ p c = false) := by
  intro b l
  induction l generalizing b with
  | nil => intro c hc; simp [collapseRunsGo] at hc
  | cons a as ih =>
    intro c hc
    simp only [collapseRunsGo] at hc
    by_cases ha : p a = true
    · rw [if_pos ha] at hc
      cases hb : b
      · rw [hb] at hc
        rw [if_neg (by simp : ¬(false = true))] at hc
        cases hc with
        | head => exact Or.inl rfl
        | tail _ h =>
          rcases ih true c h with h1 | ⟨h2, h3⟩
          · exact Or.inl h1
          · exact Or.inr ⟨List.mem_cons_of_mem a h2, h3⟩
      · rw [hb] at hc
        simp only [if_pos rfl] at hc
        rcases ih true c hc with h1 | ⟨h2, h3⟩
        · exact Or.inl h1
        · exact Or.inr ⟨List.mem_cons_of_mem a h2, h3⟩
    · have ha2 : p a = false := by
        cases hx : p a
        · rfl
        · exact absurd hx ha
      rw [if_neg (by simp [ha2])] at hc
      cases hc with
      | head => exact Or.inr ⟨List.mem_cons_self _ _, ha2⟩
      | tail _ h =>
        rcases ih false c h with h1 | ⟨h2, h3⟩
        · exact Or.inl h1
        · exact Or.inr ⟨List.mem_cons_of_mem a h2, h3⟩

/-- `jsTrimEnd` keeps a subset of the characters. -/
theorem mem_jsTrimEnd (l : List Char) (c : Char) (h : c ∈ jsTrimEnd l) : c ∈ l := by
  unfold jsTrimEnd at h
  rw [List.mem_reverse] at h
  have := List.dropWhile_sublist (l := l.reverse) (p := jsIsWs)
  have h2 := this.mem h
  rw [List.mem_reverse] at h2
  exact h2

/-- Characters of a normalized line: spaces, or input characters that are
outside both the space/tab class and the Unicode class. -/
theorem mem_normalizeLine (l : List Char) (c : Char)
    (h : c ∈ Struct.normalizeLine l) :
    c = ' ' ∨ (c ∈ l ∧ Struct.uniClass2 c = false ∧ c ≠ '\t') := by
  unfold Struct.normalizeLine at h
  have h1 := mem_jsTrimEnd _ c h
  rw [List.mem_map] at h1
  obtain ⟨d, hd, hdc⟩ := h1
  by_cases hu : Struct.uniClass2 d = true
  · rw [if_pos hu] at hdc
    exact Or.inl hdc.symm
  · have hu2 : Struct.uniClass2 d = false := by
      cases hx : Struct.uniClass2 d
      · rfl
      · exact absurd hx hu
    rw [if_neg (by simp [hu2])] at hdc
    subst hdc
    rcases mem_collapseRunsGo _ false l d hd with h2 | ⟨h3, h4⟩
    · exact Or.inl h2
    · refine Or.inr ⟨h3, hu2, ?_⟩
      intro he
      rw [he] at h4
      simp at h4

/-- A normalized line of a newline-free line is newline-free. -/
theorem normalizeLine_no_nl (l : List Char) (h : ('\n' : Char) ∉ l) :
    ('\n' : Char) ∉ Struct.normalizeLine l := by
  intro hmem
  rcases mem_normalizeLine l '\n' hmem with h1 | ⟨h2, _, _⟩
  · simp at h1
  · exact h h2

/-- `getD` through `map` at an in-range index. -/
theorem getD_map_lt (f : List Char → List Char) : ∀ (l : List (List Char)) (i : Nat),
    i < l.length → (l.map f).getD i [] = f (l.getD i []) := by
  intro l
  induction l with
  | nil => intro i h; simp at h
  | cons a as ih =>
    intro i h
    cases i with
    | zero => rfl
    | succ n =>
      simp only [List.map_cons, List.getD_cons_succ]
      exact ih n (by simpa using h)

/-- C6 (amended): the structure-aware normalizer works line by line, preserving
the number of lines; a line containing a token marker passes through verbatim,
and every other line undergoes exactly the per-line transform: collapse
space/tab runs to one space, then map each CR/FF/VT/Unicode-space character to
one space (without re-collapsing), then strip trailing whitespace.  There is
no batch-level CR/LF normalization. -/
theorem C6_amended : ∀ (text : List Char) (i : Nat),
    (splitOnChar '\n' (Struct.normalizeWhitespaceWithStructure text)).length =
      (splitOnChar '\n' text).length ∧
    (i < (splitOnChar '\n' text).length →
      (Struct.isProtectedLine ((splitOnChar '\n' text).getD i []) = true →
        (splitOnChar '\n' (Struct.normalizeWhitespaceWithStructure text)).getD i [] =
          (splitOnChar '\n' text).getD i []) ∧
      (Struct.isProtectedLine ((splitOnChar '\n' text).getD i []) = false →
        (splitOnChar '\n' (Struct.normalizeWhitespaceWithStructure text)).getD i [] =
          Struct.normalizeLine ((splitOnChar '\n' text).getD i []))) := by
  intro text i
  have hfree := splitOnChar_no_sep '\n' text
  have hkey : splitOnChar '\n' (Struct.normalizeWhitespaceWithStructure text) =
      (splitOnChar '\n' text).map
        (fun l => if Struct.isProtectedLine l then l else Struct.normalizeLine l) := by
    unfold Struct.normalizeWhitespaceWithStructure
    have hnl : (("\n" : String).toList : List Char) = ['\n'] := rfl
    rw [hnl]
    refine splitOnChar_joinWith '\n' _ ?_ ?_
    · intro hmap
      rw [List.map_eq_nil] at hmap
      exact splitOnChar_ne_nil '\n' text hmap
    · intro l hl
      rw [List.mem_map] at hl
      obtain ⟨a, ha, hfa⟩ := hl
      by_cases hprot : Struct.isProtectedLine a = true
      · rw [if_pos hprot] at hfa
        rw [← hfa]
        exact hfree a ha
      · rw [if_neg hprot] at hfa
        rw [← hfa]
        exact normalizeLine_no_nl a (hfree a ha)
  refine ⟨by rw [hkey]; exact List.length_map _ _, ?_⟩
  intro hi
  constructor
  · intro hprot
    rw [hkey, getD_map_lt _ _ i hi, if_pos hprot]
  · intro hprot
    rw [hkey, getD_map_lt _ _ i hi,
      if_neg (show ¬(Struct.isProtectedLine ((splitOnChar '\n' text).getD i []) = true) by
        rw [hprot]
        simp)]

/-- Witness for `C6_amended`: on `"a \u00A0x\n b__STRUCTURED_1__ \nc\t d  "`
line 1 is protected and survives verbatim, while lines 0 and 2 get the
per-line transform. -/
theorem C6_amended_witness :
    ((splitOnChar '\n' (Struct.normalizeWhitespaceWithStructure
        "a \u00A0x\n b__STRUCTURED_1__ \nc\t d  ".toList)).length =
      (splitOnChar '\n' "a \u00A0x\n b__STRUCTURED_1__ \nc\t d  ".toList).length) ∧
    ((splitOnChar '\n' (Struct.normalizeWhitespaceWithStructure
        "a \u00A0x\n b__STRUCTURED_1__ \nc\t d  ".toList)).getD 1 [] =
      (splitOnChar '\n' "a \u00A0x\n b__STRUCTURED_1__ \nc\t d  ".toList).getD 1 []) ∧
    ((splitOnChar '\n' (Struct.normalizeWhitespaceWithStructure
        "a \u00A0x\n b__STRUCTURED_1__ \nc\t d  ".toList)).getD 2 [] =
      Struct.normalizeLine ((splitOnChar '\n' "a \u00A0x\n b__STRUCTURED_1__ \nc\t d  ".toList).getD 2 [])) := by
  refine ⟨(C6_amended "a \u00A0x\n b__STRUCTURED_1__ \nc\t d  ".toList 0).1, ?_, ?_⟩
  · exact ((C6_amended "a \u00A0x\n b__STRUCTURED_1__ \nc\t d  ".toList 1).2
      (by decide)).1 (by decide)
  · exact ((C6_amended "a \u00A0x\n b__STRUCTURED_1__ \nc\t d  ".toList 2).2
      (by decide)).2 (by decide)

/-! ## Marker-free outputs of the basic pipeline (claim C3) -/

/-- `jsTrim` keeps a subset of the characters. -/
theorem mem_jsTrim (l : List Char) (c : Char) (h : c ∈ jsTrim l) : c ∈ l := by
  unfold jsTrim at h
  rw [List.mem_reverse] at h
  have h2 := (List.dropWhile_sublist (l := (l.dropWhile jsIsWs).reverse) (p := jsIsWs)).mem h
  rw [List.mem_reverse] at h2
  exact (List.dropWhile_sublist (l := l) (p := jsIsWs)).mem h2

/-- Characters of a literal replacement output come from the replacement or
the input. -/
theorem mem_replaceSubGo (pat repl : List Char) : ∀ (k : Nat) (l : List Char)
    (c : Char), c ∈ replaceSubGo pat repl k l → c ∈ repl ∨ c ∈ l := by
  intro k l
  induction l generalizing k with
  | nil => intro c hc; simp [replaceSubGo] at hc
  | cons a as ih =>
    intro c hc
    cases k with
    | succ n =>
      rcases ih n c hc with h1 | h1
      · exact Or.inl h1
      · exact Or.inr (List.mem_cons_of_mem a h1)
    | zero =>
      unfold replaceSubGo at hc
      split at hc
      · rcases List.mem_append.mp hc with h1 | h1
        · exact Or.inl h1
        · rcases ih _ c h1 with h2 | h2
          · exact Or.inl h2
          · exact Or.inr (List.mem_cons_of_mem a h2)
      · cases hc with
        | head => exact Or.inr (List.mem_cons_self _ _)
        | tail _ h1 =>
          rcases ih 0 c h1 with h2 | h2
          · exact Or.inl h2
          · exact Or.inr (List.mem_cons_of_mem a h2)

/-- Characters of joined pieces come from the separator or some piece. -/
theorem mem_joinWith (sep : List Char) : ∀ (ls : List (List Char)) (c : Char),
    c ∈ joinWith sep ls → c ∈ sep ∨ ∃ l ∈ ls, c ∈ l := by
  intro ls
  induction ls with
  | nil => intro c hc; simp [joinWith] at hc
  | cons x rest ih =>
    intro c hc
    cases rest with
    | nil =>
      simp only [joinWith] at hc
      exact Or.inr ⟨x, List.mem_cons_self _ _, hc⟩
    | cons y ys =>
      simp only [joinWith] at hc
      rw [List.append_assoc] at hc
      rcases List.mem_append.mp hc with h1 | h1
      · exact Or.inr ⟨x, List.mem_cons_self _ _, h1⟩
      · rcases List.mem_append.mp h1 with h2 | h2
        · exact Or.inl h2
        · rcases ih c h2 with h3 | ⟨l, hl, hcl⟩
          · exact Or.inl h3
          · exact Or.inr ⟨l, List.mem_cons_of_mem x hl, hcl⟩

/-- Characters of the blank-line split pieces come from the input. -/
theorem mem_splitBlankGo : ∀ (s : List Char) (k : Nat) (l : List Char),
    l ∈ splitBlankGo k s → ∀ c ∈ l, c ∈ s := by
  intro s
  induction s with
  | nil =>
    intro k l hl c hc
    cases k with
    | zero => simp only [splitBlankGo, List.mem_singleton] at hl; rw [hl] at hc; cases hc
    | succ n => simp only [splitBlankGo, List.mem_singleton] at hl; rw [hl] at hc; cases hc
  | cons a as ih =>
    intro k l hl c hc
    cases k with
    | succ n => exact List.mem_cons_of_mem a (ih n l hl c hc)
    | zero =>
      simp only [splitBlankGo] at hl
      cases hsep : blankSepLen (a :: as) with
      | some n =>
        rw [hsep] at hl
        cases hl with
        | head => cases hc
        | tail _ h1 => exact List.mem_cons_of_mem a (ih (n - 1) l h1 c hc)
      | none =>
        rw [hsep] at hl
        cases hq : splitBlankGo 0 as with
        | nil =>
          rw [hq] at hl
          simp only [consPiece, List.mem_singleton] at hl
          rw [hl] at hc
          simp only [List.mem_singleton] at hc
          rw [hc]
          exact List.mem_cons_self _ _
        | cons r rs =>
          rw [hq] at hl
          simp only [consPiece] at hl
          cases hl with
          | head =>
            cases hc with
            | head => exact List.mem_cons_self _ _
            | tail _ h2 =>
              exact List.mem_cons_of_mem a (ih 0 r (by rw [hq]; exact List.mem_cons_self _ _) c h2)
          | tail _ h1 =>
            exact List.mem_cons_of_mem a
              (ih 0 l (by rw [hq]; exact List.mem_cons_of_mem r h1) c hc)

/-- `hasSub` fails when some pattern character is missing from the string. -/
theorem hasSub_false_of_not_mem (s pat : List Char) (c : Char) (hc : c ∈ pat)
    (h : c ∉ s) : hasSub s pat = false := by
  cases hx : hasSub s pat
  · rfl
  · exact absurd (mem_of_hasSub s pat c hc hx) h

/-- A character neither space nor newline never appears in a normalized text it
did not appear in. -/
theorem normalizeWhitespace_no_char (c : Char) (hc1 : c ≠ ' ') (hcn : c ≠ '\n')
    (t : List Char) (h : c ∉ t) : c ∉ Script.normalizeWhitespace t := by
  intro hmem
  unfold Script.normalizeWhitespace at hmem
  rw [List.mem_map] at hmem
  obtain ⟨d, hd, hdc⟩ := hmem
  have hdval : c = d ∧ ¬(d = '\x0d') := by
    by_cases hx : d = '\x0d'
    · rw [if_pos hx] at hdc
      exact absurd hdc.symm hcn
    · rw [if_neg hx] at hdc
      exact ⟨hdc.symm, hx⟩
  rcases mem_replaceSubGo _ _ 0 _ d hd with h1 | h1
  · rw [← hdval.1] at h1
    have hlist : (("\n" : String).toList : List Char) = ['\n'] := rfl
    rw [hlist] at h1
    simp only [List.mem_singleton] at h1
    exact hcn h1
  · rcases mem_collapseRunsGo _ false _ d h1 with h2 | ⟨h3, _⟩
    · rw [← hdval.1] at h2
      exact hc1 h2
    · rw [List.mem_map] at h3
      obtain ⟨e, he, hed⟩ := h3
      by_cases hu : Script.uniClass1 e = true
      · rw [if_pos hu] at hed
        rw [← hed] at hdval
        exact hc1 hdval.1
      · rw [if_neg hu] at hed
        rw [← hed] at hdval
        rw [hdval.1] at h
        exact h he

/-- Mode A introduces only spaces. -/
theorem processModeA_no_char (c : Char) (hc1 : c ≠ ' ') (t : List Char)
    (h : c ∉ t) : c ∉ Script.processModeA t := by
  intro hmem
  unfold Script.processModeA at hmem
  have h1 := mem_jsTrim _ c hmem
  rcases mem_collapseRunsGo _ false _ c h1 with h2 | ⟨h3, _⟩
  · exact hc1 h2
  · rw [List.mem_map] at h3
    obtain ⟨e, he, hed⟩ := h3
    by_cases hn : e = '\n'
    · rw [if_pos hn] at hed
      exact hc1 hed.symm
    · rw [if_neg hn] at hed
      rw [← hed] at h
      exact h he

/-- Mode B introduces only spaces and newlines. -/
theorem processModeB_no_char (c : Char) (hc1 : c ≠ ' ') (hcn : c ≠ '\n')
    (t : List Char) (h : c ∉ t) : c ∉ Script.processModeB t := by
  intro hmem
  unfold Script.processModeB at hmem
  rcases mem_joinWith _ _ c hmem with h1 | ⟨l, hl, hcl⟩
  · have hlist : (("\n\n" : String).toList : List Char) = ['\n', '\n'] := rfl
    rw [hlist] at h1
    simp only [List.mem_cons, List.mem_singleton] at h1
    rcases h1 with h2 | h2
    · exact hcn h2
    · rcases h2 with h3 | h3
      · exact hcn h3
      · cases h3
  · rw [List.mem_map] at hl
    obtain ⟨par, hpar, hparl⟩ := hl
    rw [← hparl] at hcl
    have h2 := mem_jsTrim _ c hcl
    rcases mem_collapseRunsGo _ false _ c h2 with h3 | ⟨h4, _⟩
    · exact hc1 h3
    · rw [List.mem_map] at h4
      obtain ⟨e, he, hed⟩ := h4
      by_cases hn : e = '\n'
      · rw [if_pos hn] at hed
        exact hc1 hed.symm
      · rw [if_neg hn] at hed
        rw [← hed] at h
        have h5 := List.mem_filter.mp hpar
        exact h (mem_splitBlankGo t 0 par h5.1 e he)

/-- Mode C introduces only spaces. -/
theorem processModeC_no_char (c : Char) (hc1 : c ≠ ' ') (t : List Char)
    (h : c ∉ t) : c ∉ Script.processModeC t := by
  intro hmem
  unfold Script.processModeC at hmem
  have h1 := mem_jsTrim _ c hmem
  rcases mem_collapseRunsGo _ false _ c h1 with h2 | ⟨h3, _⟩
  · exact hc1 h2
  · exact h (List.mem_of_mem_filter h3)

/-- `finalCleanup` introduces only spaces. -/
theorem finalCleanup_no_char (c : Char) (hc1 : c ≠ ' ') (t : List Char)
    (h : c ∉ t) : c ∉ Script.finalCleanup t := by
  intro hmem
  unfold Script.finalCleanup at hmem
  have h1 := mem_jsTrim _ c hmem
  rcases mem_collapseRunsGo _ false _ c h1 with h2 | ⟨h3, _⟩
  · exact hc1 h2
  · exact h h3

/-- The state returned by `processBatch` is the state after protection. -/
theorem processBatch_snd (m b : List Char) (st : PTState) :
    (Script.processBatch m b st).2 = (Script.protectContent b st).2 := by
  unfold Script.processBatch
  cases hps : Script.protectContent b st with
  | mk p st1 => rfl

/-- When protection is a no-op (empty table), `processBatch` is just
normalize, mode dispatch and cleanup. -/
theorem processBatch_noop_fst (m b : List Char)
    (hprot : Script.protectContent b initState = (b, initState)) :
    (Script.processBatch m b initState).1 =
      Script.finalCleanup
        (if m = "A".toList then Script.processModeA (Script.normalizeWhitespace b)
         else if m = "B".toList then Script.processModeB (Script.normalizeWhitespace b)
         else if m = "C".toList then Script.processModeC (Script.normalizeWhitespace b)
         else Script.normalizeWhitespace b) := by
  unfold Script.processBatch
  rw [hprot]
  rfl

/-- The batch fold of `processTextL` under a protection no-op on every batch. -/
theorem processTextL_fold (mode : List Char) : ∀ (batches acc : List (List Char)),
    (∀ b ∈ batches, Script.protectContent b initState = (b, initState)) →
    (batches.foldl (fun acc2 b =>
      let (o, st1) := Script.processBatch mode b acc2.2
      (acc2.1 ++ [o], st1)) (acc, initState)) =
    (acc ++ batches.map (fun b => (Script.processBatch mode b initState).1), initState) := by
  intro batches
  induction batches with
  | nil => intro acc _; simp
  | cons b bs ih =>
    intro acc hprot
    simp only [List.foldl_cons, List.map_cons]
    have hsnd : (Script.processBatch mode b initState).2 = initState := by
      rw [processBatch_snd, hprot b (List.mem_cons_self _ _)]
    cases hpb : Script.processBatch mode b initState with
    | mk o st1 =>
      have hst1 : st1 = initState := by
        rw [← hsnd, hpb]
      rw [hst1]
      rw [ih (acc ++ [o]) (fun x hx => hprot x (List.mem_cons_of_mem b hx))]
      simp

/-- C3 (amended): for every mode, an input without underscores on which the
protection stage matches nothing produces output containing no
`__PROTECTED_` marker. -/
theorem C3_amended : ∀ (mode s : List Char),
    ('_' : Char) ∉ s →
    (∀ b ∈ Script.splitIntoBatches (jsTrim s), Script.protectContent b initState = (b, initState)) →
    hasSub (Script.processTextL mode s) "__PROTECTED_".toList = false := by
  intro mode s hu hprot
  apply hasSub_false_of_not_mem _ _ '_' (by decide)
  intro hmem
  by_cases he : jsTrim s = []
  · have hout : Script.processTextL mode s = [] := by
      unfold Script.processTextL
      rw [he]
      rfl
    rw [hout] at hmem
    cases hmem
  · have hout : Script.processTextL mode s =
        joinWith "\n\n".toList ((Script.splitIntoBatches (jsTrim s)).map
          (fun b => (Script.processBatch mode b initState).1)) := by
      simp only [Script.processTextL, if_neg he]
      rw [processTextL_fold mode _ [] hprot]
      simp
    rw [hout] at hmem
    rcases mem_joinWith _ _ '_' hmem with h1 | ⟨o, ho, hco⟩
    · have hlist : (("\n\n" : String).toList : List Char) = ['\n', '\n'] := rfl
      rw [hlist] at h1
      simp at h1
    · rw [List.mem_map] at ho
      obtain ⟨b, hb, hbo⟩ := ho
      have hub : ('_' : Char) ∉ b := by
        intro hmb
        have h2 := List.mem_filter.mp hb
        have h3 := mem_splitBlankGo (jsTrim s) 0 b h2.1 '_' hmb
        exact hu (mem_jsTrim s '_' h3)
      have hnorm := normalizeWhitespace_no_char '_' (by decide) (by decide) b hub
      have hdisp : ('_' : Char) ∉
          (if mode = "A".toList then Script.processModeA (Script.normalizeWhitespace b)
           else if mode = "B".toList then Script.processModeB (Script.normalizeWhitespace b)
           else if mode = "C".toList then Script.processModeC (Script.normalizeWhitespace b)
           else Script.normalizeWhitespace b) := by
        by_cases hA : mode = "A".toList
        · rw [if_pos hA]
          exact processModeA_no_char '_' (by decide) _ hnorm
        · rw [if_neg hA]
          by_cases hB : mode = "B".toList
          · rw [if_pos hB]
            exact processModeB_no_char '_' (by decide) (by decide) _ hnorm
          · rw [if_neg hB]
            by_cases hC : mode = "C".toList
            · rw [if_pos hC]
              exact processModeC_no_char '_' (by decide) _ hnorm
            · rw [if_neg hC]
              exact hnorm
      have hfin := finalCleanup_no_char '_' (by decide) _ hdisp
      rw [← hbo] at hco
      rw [processBatch_noop_fst mode b (hprot b hb)] at hco
      exact hfin hco

/-- Witness for `C3_amended` on a concrete marker-free input. -/
theorem C3_amended_witness :
    hasSub (Script.processTextL "A".toList "hello  world".toList)
      "__PROTECTED_".toList = false :=
  C3_amended "A".toList "hello  world".toList (by decide) (by decide)

/-! ## Restricted idempotence of the basic pipeline (claim C7) -/

/-- A pointwise-identity map is the identity. -/
theorem map_id_of (f : Char → Char) : ∀ l : List Char,
    (∀ c ∈ l, f c = c) → l.map f = l := by
  intro l
  induction l with
  | nil => intro _; rfl
  | cons c cs ih =>
    intro h
    simp only [List.map_cons]
    rw [h c (List.mem_cons_self _ _), ih (fun d hd => h d (List.mem_cons_of_mem c hd))]

/-- A filter that keeps every element is the identity. -/
theorem filter_id_of (p : Char → Bool) : ∀ l : List Char,
    (∀ c ∈ l, p c = true) → l.filter p = l := by
  intro l
  induction l with
  | nil => intro _; rfl
  | cons c cs ih =>
    intro h
    rw [List.filter_cons, if_pos (h c (List.mem_cons_self _ _)),
      ih (fun d hd => h d (List.mem_cons_of_mem c hd))]

/-- `dropWhile` on characters is idempotent. -/
theorem dropWhileC_idem (p : Char → Bool) : ∀ l : List Char,
    (l.dropWhile p).dropWhile p = l.dropWhile p := by
  intro l
  induction l with
  | nil => simp [List.dropWhile]
  | cons a as ih =>
    simp only [List.dropWhile_cons]
    cases ha : p a
    · simp [List.dropWhile_cons, ha]
    · simpa using ih

/-- The head surviving `dropWhile` fails the predicate. -/
theorem dropWhile_head_false (p : Char → Bool) : ∀ (l : List Char) (c : Char)
    (rest : List Char), l.dropWhile p = c :: rest → p c = false := by
  intro l
  induction l with
  | nil => intro c rest h; simp [List.dropWhile] at h
  | cons a as ih =>
    intro c rest h
    rw [List.dropWhile_cons] at h
    by_cases ha : p a = true
    · rw [if_pos ha] at h
      exact ih c rest h
    · rw [if_neg ha] at h
      cases h
      cases hx : p a
      · rfl
      · exact absurd hx ha

/-- The default of `getLastD` is irrelevant on a non-empty character list. -/
theorem getLastD_irrelC (l : List Char) (h : l ≠ []) (d e : Char) :
    l.getLastD d = l.getLastD e := by
  cases l with
  | nil => exact absurd rfl h
  | cons a as =>
    have hs : (a :: as).getLast?.isSome := by
      rw [List.getLast?_isSome]
      simp
    obtain ⟨x, hx⟩ := Option.isSome_iff_exists.mp hs
    simp [List.getLastD_eq_getLast?, hx]

/-- A non-empty `dropWhile` suffix of a character list keeps the last element. -/
theorem dropWhileC_getLastD (p : Char → Bool) (d : Char) : ∀ l : List Char,
    l.dropWhile p ≠ [] → (l.dropWhile p).getLastD d = l.getLastD d := by
  intro l
  induction l with
  | nil => intro h; simp [List.dropWhile] at h
  | cons a as ih =>
    intro h
    simp only [List.dropWhile_cons] at h ⊢
    cases ha : p a
    · simp
    · rw [ha] at h
      simp only [if_true, eq_self_iff_true] at h ⊢
      have hasne : as ≠ [] := by
        intro he
        rw [he] at h
        simp [List.dropWhile] at h
      rw [ih h, List.getLastD_cons]
      exact getLastD_irrelC as hasne d a

/-- `jsTrim` is idempotent. -/
theorem jsTrim_idem (l : List Char) : jsTrim (jsTrim l) = jsTrim l := by
  unfold jsTrim
  have hA : (((l.dropWhile jsIsWs).reverse.dropWhile jsIsWs).reverse).dropWhile jsIsWs =
      ((l.dropWhile jsIsWs).reverse.dropWhile jsIsWs).reverse := by
    cases hz : ((l.dropWhile jsIsWs).reverse.dropWhile jsIsWs).reverse with
    | nil => simp [List.dropWhile]
    | cons c rest =>
      have hzrev : (l.dropWhile jsIsWs).reverse.dropWhile jsIsWs = rest.reverse ++ [c] := by
        have := congrArg List.reverse hz
        simpa using this
      have hzne : (l.dropWhile jsIsWs).reverse.dropWhile jsIsWs ≠ [] := by
        rw [hzrev]
        simp
      have hxne : (l.dropWhile jsIsWs).reverse ≠ [] := by
        intro he
        rw [he] at hzne
        simp [List.dropWhile] at hzne
      have hc1 : ((l.dropWhile jsIsWs).reverse.dropWhile jsIsWs).getLastD ' ' = c := by
        rw [hzrev]
        simp [List.getLastD_eq_getLast?, List.getLast?_concat]
      have hc2 : ((l.dropWhile jsIsWs).reverse).getLastD ' ' = c := by
        rw [← dropWhileC_getLastD jsIsWs ' ' _ hzne, hc1]
      have hcws : jsIsWs c = false := by
        cases hd : l.dropWhile jsIsWs with
        | nil => rw [hd] at hxne; simp at hxne
        | cons d ds =>
          have hdns : jsIsWs d = false := dropWhile_head_false jsIsWs l d ds hd
          have : ((d :: ds).reverse).getLastD ' ' = d := by
            simp [List.getLastD_eq_getLast?, List.getLast?_reverse]
          rw [hd] at hc2
          rw [this] at hc2
          rw [← hc2]
          exact hdns
      rw [List.dropWhile_cons, if_neg (by simp [hcws])]
  rw [hA, List.reverse_reverse, dropWhileC_idem]

/-- No two adjacent characters both satisfy `p`. -/
def noDubP (p : Char → Bool) : List Char → Bool
  | a :: b :: rest => !(p a && p b) && noDubP p (b :: rest)
  | _ => true

/-- Unfolding equations for `collapseRunsGo` and `noDubP`. -/
theorem collapseGo_nil (p : Char → Bool) (b : Bool) : collapseRunsGo p b [] = [] := by
  cases b <;> rfl

/-- Unfolding the cons case of `collapseRunsGo`. -/
theorem collapseGo_cons (p : Char → Bool) (b : Bool) (a : Char) (as : List Char) :
    collapseRunsGo p b (a :: as) =
      (if p a then
        (if b then collapseRunsGo p true as else ' ' :: collapseRunsGo p true as)
       else a :: collapseRunsGo p false as) := by
  cases b <;> rfl

/-- Unfolding the two-cons case of `noDubP`. -/
theorem noDubP_cons2 (p : Char → Bool) (a b : Char) (rest : List Char) :
    noDubP p (a :: b :: rest) = (!(p a && p b) && noDubP p (b :: rest)) := rfl

/-- `noDubP` holds on short lists. -/
theorem noDubP_short (p : Char → Bool) : noDubP p [] = true ∧ ∀ a, noDubP p [a] = true :=
  ⟨rfl, fun _ => rfl⟩

/-- `noDubP` passes to the tail. -/
theorem noDubP_tail (p : Char → Bool) (a : Char) : ∀ l : List Char,
    noDubP p (a :: l) = true → noDubP p l = true := by
  intro l h
  cases l with
  | nil => exact (noDubP_short p).1
  | cons b bs =>
    rw [noDubP_cons2] at h
    exact (Bool.and_eq_true _ _ |>.mp h).2

/-- `noDubP` passes to any `dropWhile` suffix. -/
theorem noDubP_dropWhile (p q : Char → Bool) : ∀ l : List Char,
    noDubP p l = true → noDubP p (l.dropWhile q) = true := by
  intro l
  induction l with
  | nil => intro _; exact (noDubP_short p).1
  | cons a as ih =>
    intro h
    rw [List.dropWhile_cons]
    by_cases ha : q a = true
    · rw [if_pos ha]
      exact ih (noDubP_tail p a as h)
    · rw [if_neg ha]
      exact h

/-- `noDubP` over a snoc. -/
theorem noDubP_snoc (p : Char → Bool) (a : Char) : ∀ l : List Char,
    noDubP p (l ++ [a]) =
      (noDubP p l && (match l.getLast? with
        | none => true
        | some b => !(p b && p a))) := by
  intro l
  induction l with
  | nil => simp [noDubP]
  | cons c cs ih =>
    cases cs with
    | nil =>
      have h1 : ([c] ++ [a]) = c :: a :: [] := rfl
      rw [h1, noDubP_cons2]
      simp [noDubP, List.getLast?_singleton, Bool.and_comm]
    | cons d ds =>
      have h1 : ((c :: d :: ds) ++ [a]) = c :: ((d :: ds) ++ [a]) := rfl
      rw [h1]
      have h2 : (d :: ds) ++ [a] = d :: (ds ++ [a]) := rfl
      rw [h2, noDubP_cons2, ← h2, ih]
      have h3 : (c :: d :: ds).getLast? = (d :: ds).getLast? := by
        rw [List.getLast?_cons_cons]
      rw [h3, noDubP_cons2]
      cases hx : (d :: ds).getLast? <;> simp [Bool.and_assoc]

/-- `noDubP` is invariant under reversal. -/
theorem noDubP_reverse (p : Char → Bool) : ∀ l : List Char,
    noDubP p l.reverse = noDubP p l := by
  intro l
  induction l with
  | nil => rfl
  | cons a as ih =>
    rw [List.reverse_cons, noDubP_snoc, ih]
    cases as with
    | nil => simp [noDubP]
    | cons b bs =>
      rw [noDubP_cons2]
      have h2 : (b :: bs).reverse.getLast? = some b := by
        rw [List.getLast?_reverse]
        rfl
      rw [h2]
      simp [Bool.and_comm]

/-- `noDubP` passes to `jsTrim`. -/
theorem noDubP_jsTrim (p : Char → Bool) (l : List Char) (h : noDubP p l = true) :
    noDubP p (jsTrim l) = true := by
  unfold jsTrim
  rw [noDubP_reverse]
  exact noDubP_dropWhile p jsIsWs _ (by rw [noDubP_reverse]; exact noDubP_dropWhile p jsIsWs l h)

/-- Collapsed output has no adjacent `p`-pairs, and with the flag set it starts
with a non-`p` character (if anything). -/
theorem collapse_noDub (p : Char → Bool) : ∀ l : List Char,
    noDubP p (collapseRunsGo p false l) = true ∧
    (∀ c rest, collapseRunsGo p true l = c :: rest → p c = false) ∧
    noDubP p (collapseRunsGo p true l) = true := by
  intro l
  induction l with
  | nil =>
    refine ⟨(noDubP_short p).1, ?_, (noDubP_short p).1⟩
    intro c rest h
    rw [collapseGo_nil] at h
    cases h
  | cons a as ih =>
    obtain ⟨ihF, ihThead, ihT⟩ := ih
    by_cases ha : p a = true
    · have e1 : collapseRunsGo p false (a :: as) = ' ' :: collapseRunsGo p true as := by
        rw [collapseGo_cons, if_pos ha, if_neg (by simp : ¬(false = true))]
      have e2 : collapseRunsGo p true (a :: as) = collapseRunsGo p true as := by
        rw [collapseGo_cons, if_pos ha, if_pos rfl]
      refine ⟨?_, ?_, ?_⟩
      · rw [e1]
        cases hx : collapseRunsGo p true as with
        | nil => exact ((noDubP_short p).2 ' ')
        | cons c rest =>
          have hcp : p c = false := ihThead c rest hx
          rw [noDubP_cons2, hcp, ← hx]
          simp [ihT]
      · intro c rest h
        rw [e2] at h
        exact ihThead c rest h
      · rw [e2]
        exact ihT
    · have ha2 : p a = false := by
        cases hx : p a
        · rfl
        · exact absurd hx ha
      have e1 : collapseRunsGo p false (a :: as) = a :: collapseRunsGo p false as := by
        rw [collapseGo_cons, if_neg (by simp [ha2])]
      have e2 : collapseRunsGo p true (a :: as) = a :: collapseRunsGo p false as := by
        rw [collapseGo_cons, if_neg (by simp [ha2])]
      have hcommon : noDubP p (a :: collapseRunsGo p false as) = true := by
        cases hx : collapseRunsGo p false as with
        | nil => exact ((noDubP_short p).2 a)
        | cons c rest =>
          rw [noDubP_cons2, ha2, ← hx]
          simp [ihF]
      refine ⟨?_, ?_, ?_⟩
      · rw [e1]
        exact hcommon
      · intro c rest h
        rw [e2] at h
        cases h
        exact ha2
      · rw [e2]
        exact hcommon

/-- A collapse is the identity on a string with no adjacent `p`-pairs whose
`p`-characters are all plain spaces. -/
theorem collapse_id_of (p : Char → Bool) : ∀ l : List Char,
    noDubP p l = true → (∀ c ∈ l, p c = true → c = ' ') →
    collapseRunsGo p false l = l := by
  intro l
  induction l with
  | nil => intro _ _; rfl
  | cons a as ih =>
    intro hnd hsp
    by_cases ha : p a = true
    · have haSp : a = ' ' := hsp a (List.mem_cons_self _ _) ha
      have e1 : collapseRunsGo p false (a :: as) = ' ' :: collapseRunsGo p true as := by
        rw [collapseGo_cons, if_pos ha, if_neg (by simp : ¬(false = true))]
      rw [e1, ← haSp]
      cases has : as with
      | nil => rw [collapseGo_nil]
      | cons b bs =>
        subst has
        have hb : p b = false := by
          rw [noDubP_cons2] at hnd
          have := (Bool.and_eq_true _ _ |>.mp hnd).1
          rw [ha] at this
          cases hx : p b
          · rfl
          · rw [hx] at this; simp at this
        have e2 : collapseRunsGo p true (b :: bs) = b :: collapseRunsGo p false bs := by
          rw [collapseGo_cons, if_neg (by simp [hb])]
        have e3 : collapseRunsGo p false (b :: bs) = b :: collapseRunsGo p false bs := by
          rw [collapseGo_cons, if_neg (by simp [hb])]
        rw [e2, ← e3]
        rw [ih (noDubP_tail p a _ hnd) (fun d hd hpd => hsp d (List.mem_cons_of_mem a hd) hpd)]
    · have ha2 : p a = false := by
        cases hx : p a
        · rfl
        · exact absurd hx ha
      have e1 : collapseRunsGo p false (a :: as) = a :: collapseRunsGo p false as := by
        rw [collapseGo_cons, if_neg (by simp [ha2])]
      rw [e1, ih (noDubP_tail p a _ hnd)
        (fun d hd hpd => hsp d (List.mem_cons_of_mem a hd) hpd)]

/-- Without a newline there is no blank-line separator, so the split is the
identity. -/
theorem splitBlank_no_nl (s : List Char) (h : ('\n' : Char) ∉ s) :
    splitBlank s = [s] := by
  unfold splitBlank
  induction s with
  | nil => rfl
  | cons c cs ih =>
    have hc : ¬(c = '\n') := by
      intro he
      exact h (by rw [he]; exact List.mem_cons_self _ _)
    have hsep : blankSepLen (c :: cs) = none := by
      simp only [blankSepLen]
      rw [if_neg hc]
    have e1 : splitBlankGo 0 (c :: cs) = consPiece c (splitBlankGo 0 cs) := by
      simp only [splitBlankGo]
      rw [hsep]
    rw [e1, ih (fun hm => h (List.mem_cons_of_mem c hm))]
    rfl

/-- Unfolding equation of the replacement worker at skip 0 on a cons. -/
theorem replaceSubGo_zero_cons (pat repl : List Char) (c : Char) (cs : List Char) :
    replaceSubGo pat repl 0 (c :: cs) =
      (if pat ≠ [] && isPre pat (c :: cs) then
        repl ++ replaceSubGo pat repl (pat.length - 1) cs
       else c :: replaceSubGo pat repl 0 cs) := rfl

/-- A literal replacement whose pattern head never occurs is the identity. -/
theorem replaceSub_no_head (p0 : Char) (ps repl : List Char) : ∀ s : List Char,
    p0 ∉ s → replaceSubGo (p0 :: ps) repl 0 s = s := by
  intro s
  induction s with
  | nil => intro _; rfl
  | cons c cs ih =>
    intro h
    have hc : ¬(p0 = c) := by
      intro he
      exact h (by rw [he]; exact List.mem_cons_self _ _)
    have hpre : isPre (p0 :: ps) (c :: cs) = false := by
      simp [isPre, hc]
    rw [replaceSubGo_zero_cons, hpre, Bool.and_false,
      if_neg (by simp : ¬(false = true)), ih (fun hm => h (List.mem_cons_of_mem c hm))]

/-- Characters of the basic normalizer's output outside `{' ', '\n'}` come from
the input; no Unicode-class character and no CR survives, and no newline is
created. -/
theorem normalize_chars (t : List Char) : ∀ c ∈ Script.normalizeWhitespace t,
    Script.uniClass1 c = false ∧ (c = ' ' ∨ c = '\n' ∨ c ∈ t) ∧
    (c = '\n' → c ∈ t) := by
  intro c hc
  unfold Script.normalizeWhitespace at hc
  rw [List.mem_map] at hc
  obtain ⟨d, hd, hdc⟩ := hc
  have hd3 : d ∈ replaceSubGo ('\x0d' :: "\n".toList) "\n".toList 0
      (collapseRunsGo (fun x => x = ' ') false
        (t.map (fun x => if Script.uniClass1 x then ' ' else x))) := hd
  -- first: no CR survives the class map, hence the replacement is vacuous
  have hnoCR : ('\x0d' : Char) ∉ collapseRunsGo (fun x => x = ' ') false
      (t.map (fun x => if Script.uniClass1 x then ' ' else x)) := by
    intro hmem
    rcases mem_collapseRunsGo _ false _ _ hmem with h1 | ⟨h2, _⟩
    · cases h1
    · rw [List.mem_map] at h2
      obtain ⟨e, _, hee⟩ := h2
      by_cases hu : Script.uniClass1 e = true
      · rw [if_pos hu] at hee
        cases hee
      · rw [if_neg hu] at hee
        subst hee
        simp [Script.uniClass1] at hu
  rw [replaceSub_no_head '\x0d' "\n".toList "\n".toList _ hnoCR] at hd3
  have hdnotCR : ¬(d = '\x0d') := by
    intro he
    rw [he] at hd3
    exact hnoCR hd3
  rw [if_neg hdnotCR] at hdc
  subst hdc
  rcases mem_collapseRunsGo _ false _ _ hd3 with h1 | ⟨h2, _⟩
  · subst h1
    refine ⟨by decide, Or.inl rfl, by intro h; cases h⟩
  · rw [List.mem_map] at h2
    obtain ⟨e, he, hee⟩ := h2
    by_cases hu : Script.uniClass1 e = true
    · rw [if_pos hu] at hee
      subst hee
      refine ⟨by decide, Or.inl rfl, by intro h; cases h⟩
    · rw [if_neg hu] at hee
      subst hee
      have hu2 : Script.uniClass1 e = false := by
        cases hx : Script.uniClass1 e
        · rfl
        · exact absurd hx hu
      exact ⟨hu2, Or.inr (Or.inr he), fun _ => he⟩

/-- The basic normalizer is the identity on class-free text with no adjacent
space pairs. -/
theorem normalize_id (t : List Char)
    (hclass : ∀ c ∈ t, Script.uniClass1 c = false)
    (hnd : noDubP (fun c => c = ' ') t = true) :
    Script.normalizeWhitespace t = t := by
  have h1 : t.map (fun c => if Script.uniClass1 c then ' ' else c) = t := by
    refine map_id_of _ t ?_
    intro c hc
    rw [if_neg (by simp [hclass c hc])]
  have hnoCR : ('\x0d' : Char) ∉ t := by
    intro hmem
    have := hclass _ hmem
    simp [Script.uniClass1] at this
  have h2 : collapseRunsGo (fun c => decide (c = ' ')) false t = t := by
    refine collapse_id_of _ t hnd ?_
    intro c _ hp
    simpa using hp
  have h3 : replaceSubGo ('\x0d' :: "\n".toList) "\n".toList 0 t = t :=
    replaceSub_no_head '\x0d' "\n".toList "\n".toList t hnoCR
  have h4 : t.map (fun c => if c = '\x0d' then '\n' else c) = t := by
    refine map_id_of _ t ?_
    intro c hc
    rw [if_neg]
    intro he
    rw [he] at hc
    exact hnoCR hc
  show (replaceSubGo ('\x0d' :: "\n".toList) "\n".toList 0
      (collapseRunsGo (fun c => decide (c = ' ')) false
        (t.map (fun c => if Script.uniClass1 c then ' ' else c)))).map
      (fun c => if c = '\x0d' then '\n' else c) = t
  rw [h1, h2, h3, h4]

/-- `noDubP` is antitone in the predicate. -/
theorem noDubP_mono (p q : Char → Bool) (hpq : ∀ c, p c = true → q c = true) :
    ∀ l : List Char, noDubP q l = true → noDubP p l = true := by
  intro l
  induction l with
  | nil => intro _; exact (noDubP_short p).1
  | cons a as ih =>
    intro h
    cases has : as with
    | nil => exact (noDubP_short p).2 a
    | cons b bs =>
      subst has
      rw [noDubP_cons2] at h ⊢
      have h1 := (Bool.and_eq_true _ _ |>.mp h).1
      have h2 := (Bool.and_eq_true _ _ |>.mp h).2
      rw [ih h2, Bool.and_true]
      by_cases hpa : p a = true
      · by_cases hpb : p b = true
        · rw [hpq a hpa, hpq b hpb] at h1
          simp at h1
        · have : p b = false := by
            cases hx : p b
            · rfl
            · exact absurd hx hpb
          rw [this, hpa]
          rfl
      · have : p a = false := by
          cases hx : p a
          · rfl
          · exact absurd hx hpa
        rw [this]
        rfl

/-- The basic normalizer is exactly a space-run collapse of the class map: the
CR steps are vacuous because the class map already removed every CR. -/
theorem normalize_eq_collapse (t : List Char) :
    Script.normalizeWhitespace t =
      collapseRunsGo (fun c => c = ' ') false
        (t.map (fun c => if Script.uniClass1 c then ' ' else c)) := by
  have hnoCR : ('\x0d' : Char) ∉ collapseRunsGo (fun c => c = ' ') false
      (t.map (fun c => if Script.uniClass1 c then ' ' else c)) := by
    intro hmem
    rcases mem_collapseRunsGo _ false _ _ hmem with h1 | ⟨h2, _⟩
    · cases h1
    · rw [List.mem_map] at h2
      obtain ⟨e, _, hee⟩ := h2
      by_cases hu : Script.uniClass1 e = true
      · rw [if_pos hu] at hee
        cases hee
      · rw [if_neg hu] at hee
        subst hee
        simp [Script.uniClass1] at hu
  show (replaceSubGo ('\x0d' :: "\n".toList) "\n".toList 0
      (collapseRunsGo (fun c => decide (c = ' ')) false
        (t.map (fun c => if Script.uniClass1 c then ' ' else c)))).map
      (fun c => if c = '\x0d' then '\n' else c) = _
  rw [replaceSub_no_head '\x0d' "\n".toList "\n".toList _ hnoCR]
  refine map_id_of _ _ ?_
  intro c hc
  rw [if_neg]
  intro he
  rw [he] at hc
  exact hnoCR hc

/-- The basic normalizer leaves no adjacent space pair. -/
theorem nw_noDub (t : List Char) :
    noDubP (fun c => c = ' ') (Script.normalizeWhitespace t) = true := by
  rw [normalize_eq_collapse]
  exact (collapse_noDub _ _).1

/-- Characters of `finalCleanup` output are spaces or input characters. -/
theorem fc_mem (x : List Char) (c : Char) (h : c ∈ Script.finalCleanup x) :
    c = ' ' ∨ c ∈ x := by
  unfold Script.finalCleanup at h
  have h1 := mem_jsTrim _ c h
  rcases mem_collapseRunsGo _ false _ _ h1 with h2 | ⟨h3, _⟩
  · exact Or.inl h2
  · exact Or.inr h3

/-- `finalCleanup` output has no adjacent space pair. -/
theorem fc_noDub (x : List Char) :
    noDubP (fun c => c = ' ') (Script.finalCleanup x) = true :=
  noDubP_jsTrim _ _ (collapse_noDub _ x).1

/-- `finalCleanup` output is already trimmed. -/
theorem fc_trim (x : List Char) :
    jsTrim (Script.finalCleanup x) = Script.finalCleanup x :=
  jsTrim_idem _

/-- Characters of mode A output are spaces or non-newline input characters. -/
theorem modeA_mem (n : List Char) (c : Char) (h : c ∈ Script.processModeA n) :
    c = ' ' ∨ (c ∈ n ∧ ¬(c = '\n')) := by
  unfold Script.processModeA at h
  have h1 := mem_jsTrim _ c h
  rcases mem_collapseRunsGo _ false _ _ h1 with h2 | ⟨h3, _⟩
  · exact Or.inl h2
  · rw [List.mem_map] at h3
    obtain ⟨d, hd, hdc⟩ := h3
    by_cases hdn : d = '\n'
    · rw [if_pos hdn] at hdc
      exact Or.inl hdc.symm
    · rw [if_neg hdn] at hdc
      subst hdc
      exact Or.inr ⟨hd, hdn⟩

/-- On newline-free text, mode B is empty output or exactly mode A. -/
theorem modeB_eq_cases (n : List Char) (hnl : ('\n' : Char) ∉ n) :
    Script.processModeB n = [] ∨ Script.processModeB n = Script.processModeA n := by
  unfold Script.processModeB
  rw [splitBlank_no_nl _ hnl]
  by_cases he : jsTrim n = []
  · left
    simp [List.filter, he]
    rfl
  · right
    simp [List.filter, he]
    rfl

/-- Characters of mode C output are spaces or non-whitespace input characters. -/
theorem modeC_mem (n : List Char) (c : Char) (h : c ∈ Script.processModeC n) :
    c = ' ' ∨ (c ∈ n ∧ jsIsWs c = false) := by
  unfold Script.processModeC at h
  have h1 := mem_jsTrim _ c h
  rcases mem_collapseRunsGo _ false _ _ h1 with h2 | ⟨h3, h4⟩
  · exact Or.inl h2
  · exact Or.inr ⟨List.mem_of_mem_filter h3, h4⟩

/-- Mode C output has no adjacent whitespace pair. -/
theorem modeC_noDubWs (n : List Char) :
    noDubP jsIsWs (Script.processModeC n) = true :=
  noDubP_jsTrim _ _ (collapse_noDub jsIsWs _).1

/-- Mode C output is already trimmed. -/
theorem modeC_trim (n : List Char) :
    jsTrim (Script.processModeC n) = Script.processModeC n :=
  jsTrim_idem _

/-- `finalCleanup` is the identity on trimmed text with no adjacent
whitespace pair. -/
theorem fc_id_of_wsNoDub (q : List Char) (h : noDubP jsIsWs q = true)
    (ht : jsTrim q = q) : Script.finalCleanup q = q := by
  unfold Script.finalCleanup collapseRuns
  rw [collapse_id_of _ q
    (noDubP_mono _ jsIsWs (by intro c hc; rw [decide_eq_true_eq] at hc; rw [hc]; rfl) q h)
    (fun c _ hc => by simpa using hc)]
  exact ht

/-- On an input whose trim is non-empty and newline-free (hence a single batch)
with no-op protection, `processTextL` is the single-batch output. -/
theorem processTextL_single (m s : List Char) (h0 : ('\n' : Char) ∉ jsTrim s)
    (h1 : jsTrim s ≠ [])
    (hprot : Script.protectContent (jsTrim s) initState = (jsTrim s, initState)) :
    Script.processTextL m s = (Script.processBatch m (jsTrim s) initState).1 := by
  have hbatches : Script.splitIntoBatches (jsTrim s) = [jsTrim s] := by
    unfold Script.splitIntoBatches
    rw [splitBlank_no_nl _ h0]
    simp [List.filter, jsTrim_idem, h1]
  have hprotAll : ∀ b ∈ Script.splitIntoBatches (jsTrim s),
      Script.protectContent b initState = (b, initState) := by
    rw [hbatches]
    intro b hb
    rw [List.mem_singleton] at hb
    rw [hb]
    exact hprot
  simp only [Script.processTextL, if_neg h1]
  rw [processTextL_fold m _ [] hprotAll, hbatches]
  simp only [List.map_cons, List.map_nil, List.nil_append]
  rfl

/-- A batch in pipeline normal form (no newline, no Unicode-class character, no
double space, trimmed, and for mode C whitespace-normalized) with no-op
protection is a fixed point of `processBatch`. -/
theorem processBatch_fix (m b : List Char)
    (hprot : Script.protectContent b initState = (b, initState))
    (hnl : ('\n' : Char) ∉ b)
    (huni : ∀ c ∈ b, Script.uniClass1 c = false)
    (hnd : noDubP (fun c => c = ' ') b = true)
    (htr : jsTrim b = b)
    (hb : b ≠ [])
    (hws : m = "C".toList →
      (∀ c ∈ b, jsIsWs c = true → c = ' ') ∧ noDubP jsIsWs b = true) :
    (Script.processBatch m b initState).1 = b := by
  rw [processBatch_noop_fst m b hprot]
  have hnw : Script.normalizeWhitespace b = b := normalize_id b huni hnd
  have hcsp : collapseRunsGo (fun c => c = ' ') false b = b :=
    collapse_id_of _ b hnd (fun c _ hc => by simpa using hc)
  have hmap : b.map (fun c => if c = '\n' then ' ' else c) = b := by
    refine map_id_of _ b ?_
    intro c hc
    rw [if_neg]
    intro he
    rw [he] at hc
    exact hnl hc
  have hA_fix : Script.processModeA b = b := by
    unfold Script.processModeA collapseRuns
    rw [hmap, hcsp, htr]
  by_cases hA : m = "A".toList
  · rw [if_pos hA, hnw, hA_fix]
    unfold Script.finalCleanup collapseRuns
    rw [hcsp, htr]
  · rw [if_neg hA]
    by_cases hB : m = "B".toList
    · rw [if_pos hB, hnw]
      rcases modeB_eq_cases b hnl with hBe | hBe
      · have : Script.processModeB b = Script.processModeA b := by
          unfold Script.processModeB
          rw [splitBlank_no_nl _ hnl]
          simp [List.filter, htr, hb]
          rfl
        rw [this, hA_fix]
        unfold Script.finalCleanup collapseRuns
        rw [hcsp, htr]
      · rw [hBe, hA_fix]
        unfold Script.finalCleanup collapseRuns
        rw [hcsp, htr]
    · rw [if_neg hB]
      by_cases hC : m = "C".toList
      · rw [if_pos hC, hnw]
        obtain ⟨hws1, hws2⟩ := hws hC
        have hCfix : Script.processModeC b = b := by
          unfold Script.processModeC collapseRuns
          rw [filter_id_of _ b (by
            intro c hc
            simp only [Bool.not_eq_true']
            rw [decide_eq_false_iff_not]
            intro he
            rw [he] at hc
            exact hnl hc)]
          rw [collapse_id_of jsIsWs b hws2 hws1, htr]
        rw [hCfix]
        unfold Script.finalCleanup collapseRuns
        rw [hcsp, htr]
      · rw [if_neg hC, hnw]
        unfold Script.finalCleanup collapseRuns
        rw [hcsp, htr]

/-- Characters of the mode-dispatch output are spaces or non-newline characters
of the normalized batch. -/
theorem dispatch_mem (m t : List Char) (hnl : ('\n' : Char) ∉ jsTrim t) :
    ∀ c ∈ (if m = "A".toList then Script.processModeA (Script.normalizeWhitespace (jsTrim t))
       else if m = "B".toList then Script.processModeB (Script.normalizeWhitespace (jsTrim t))
       else if m = "C".toList then Script.processModeC (Script.normalizeWhitespace (jsTrim t))
       else Script.normalizeWhitespace (jsTrim t)),
      c = ' ' ∨ (c ∈ Script.normalizeWhitespace (jsTrim t) ∧ ¬(c = '\n')) := by
  intro c hc
  have hn_nl : ('\n' : Char) ∉ Script.normalizeWhitespace (jsTrim t) := by
    intro hm
    exact hnl ((normalize_chars _ _ hm).2.2 rfl)
  by_cases hA : m = "A".toList
  · rw [if_pos hA] at hc
    exact modeA_mem _ c hc
  · rw [if_neg hA] at hc
    by_cases hB : m = "B".toList
    · rw [if_pos hB] at hc
      rcases modeB_eq_cases _ hn_nl with hBe | hBe
      · rw [hBe] at hc
        cases hc
      · rw [hBe] at hc
        exact modeA_mem _ c hc
    · rw [if_neg hB] at hc
      by_cases hC : m = "C".toList
      · rw [if_pos hC] at hc
        rcases modeC_mem _ c hc with h1 | ⟨h2, h3⟩
        · exact Or.inl h1
        · refine Or.inr ⟨h2, ?_⟩
          intro he
          rw [he] at h3
          simp [jsIsWs] at h3
      · rw [if_neg hC] at hc
        refine Or.inr ⟨hc, ?_⟩
        intro he
        rw [he] at hc
        exact hn_nl hc

/-- C7 (amended): the pipeline is not idempotent in general (see the
counterexample), but it is idempotent for every mode on a newline-free input on
which the protection stage matches nothing on either pass. -/
theorem C7_amended : ∀ (m s : List Char),
    ('\n' : Char) ∉ s →
    Script.protectContent (jsTrim s) initState = (jsTrim s, initState) →
    Script.protectContent (Script.processTextL m s) initState =
      (Script.processTextL m s, initState) →
    Script.processTextL m (Script.processTextL m s) = Script.processTextL m s := by
  intro m s hnl hprot1 hprot2
  by_cases ht : jsTrim s = []
  · have hout : Script.processTextL m s = [] := by
      unfold Script.processTextL
      rw [ht]
      rfl
    rw [hout]
    unfold Script.processTextL
    rfl
  · have h0 : ('\n' : Char) ∉ jsTrim s := fun hm => hnl (mem_jsTrim s '\n' hm)
    rw [processTextL_single m s h0 ht hprot1] at hprot2 ⊢
    have hoeq := processBatch_noop_fst m (jsTrim s) hprot1
    set o := (Script.processBatch m (jsTrim s) initState).1 with hodef
    by_cases hoe : o = []
    · rw [hoe]
      unfold Script.processTextL
      rfl
    · have ho_mem : ∀ c ∈ o, c = ' ' ∨
          (c ∈ Script.normalizeWhitespace (jsTrim s) ∧ ¬(c = '\n')) := by
        intro c hc
        rw [hoeq] at hc
        rcases fc_mem _ c hc with h1 | h2
        · exact Or.inl h1
        · exact dispatch_mem m s h0 c h2
      have ho_nl : ('\n' : Char) ∉ o := by
        intro hm
        rcases ho_mem '\n' hm with h1 | ⟨_, h2⟩
        · cases h1
        · exact h2 rfl
      have ho_uni : ∀ c ∈ o, Script.uniClass1 c = false := by
        intro c hc
        rcases ho_mem c hc with h1 | ⟨h2, _⟩
        · rw [h1]
          rfl
        · exact (normalize_chars _ c h2).1
      have ho_nd : noDubP (fun c => c = ' ') o = true := by
        rw [hoeq]
        exact fc_noDub _
      have ho_tr : jsTrim o = o := by
        rw [hoeq]
        exact fc_trim _
      have ho_ws : m = "C".toList →
          (∀ c ∈ o, jsIsWs c = true → c = ' ') ∧ noDubP jsIsWs o = true := by
        intro hC
        have hoeqC : o = Script.processModeC (Script.normalizeWhitespace (jsTrim s)) := by
          rw [hoeq, if_neg (by rw [hC]; decide), if_neg (by rw [hC]; decide), if_pos hC]
          exact fc_id_of_wsNoDub _ (modeC_noDubWs _) (modeC_trim _)
        constructor
        · intro c hc hwc
          rw [hoeqC] at hc
          rcases modeC_mem _ c hc with h1 | ⟨_, h3⟩
          · exact h1
          · rw [hwc] at h3
            cases h3
        · rw [hoeqC]
          exact modeC_noDubWs _
      have h0b : ('\n' : Char) ∉ jsTrim o := by
        rw [ho_tr]
        exact ho_nl
      have htb : jsTrim o ≠ [] := by
        rw [ho_tr]
        exact hoe
      have hprotb : Script.protectContent (jsTrim o) initState = (jsTrim o, initState) := by
        rw [ho_tr]
        exact hprot2
      rw [processTextL_single m o h0b htb hprotb, ho_tr]
      exact processBatch_fix m o hprot2 ho_nl ho_uni ho_nd ho_tr hoe ho_ws

/-- Witness for `C7_amended` at mode A on `"a  b"`. -/
theorem C7_amended_witness :
    Script.processTextL "A".toList (Script.processTextL "A".toList "a  b".toList) =
      Script.processTextL "A".toList "a  b".toList :=
  C7_amended "A".toList "a  b".toList (by decide) (by rfl) (by rfl)

/-- C8 (amended): the concrete scenario yields the claimed output; every kept
batch has non-empty trim (whitespace-only pieces are discarded); and on
non-blank input the orchestrator is exactly the left-to-right fold of
`processBatch` over the blank-line split with one shared protection state,
rejoined with one blank line. -/
theorem C8_amended :
    Script.processTextL "A".toList "Hello    world\n\nThis   is   a test.".toList =
      "Hello world\n\nThis is a test.".toList ∧
    (∀ s b : List Char, b ∈ Script.splitIntoBatches s → jsTrim b ≠ []) ∧
    (∀ m s : List Char, jsTrim s ≠ [] →
      Script.processTextL m s = joinWith "\n\n".toList
        (((Script.splitIntoBatches (jsTrim s)).foldl (fun acc b =>
          let (o, st1) := Script.processBatch m b acc.2
          (acc.1 ++ [o], st1)) (([] : List (List Char)), initState)).1)) := by
  refine ⟨by decide, ?_, ?_⟩
  · intro s b hb
    have h := (List.mem_filter.mp hb).2
    simpa using h
  · intro m s h
    simp only [Script.processTextL, if_neg h]

/-- Witness for the quantified parts of `C8_amended` at concrete inputs. -/
theorem C8_amended_witness :
    jsTrim "a".toList ≠ [] ∧
    Script.processTextL "A".toList "a\n\nb".toList = joinWith "\n\n".toList
      (((Script.splitIntoBatches (jsTrim "a\n\nb".toList)).foldl (fun acc b =>
        let (o, st1) := Script.processBatch "A".toList b acc.2
        (acc.1 ++ [o], st1)) (([] : List (List Char)), initState)).1) :=
  ⟨C8_amended.2.1 "a\n\nb".toList "a".toList (by decide),
   C8_amended.2.2 "A".toList "a\n\nb".toList (by decide)⟩
